import Mathlib

/-!
Verification of the indexed region-query engine and pileup engine of the
rust-htslib bam layer.  The crate root (src/lib.rs) only declares the
modules and documents the user-facing access patterns; the bodies of the
bam index / pileup modules are not part of the visible sources, so the
component definitions below are modelled from the specification document
(spec.md sections 3, 4 and 7) and verified against the claims.
-/

namespace Htslib

/-- Modelled from the spec: operation kinds of the compact run-length
alignment encoding (spec section 3, Operation Run); the concrete decoder in
the bam record module is not under the visible sources. -/
inductive OpKind where
  | Match
  | Insertion
  | Deletion
  | RefSkip
  | SoftClip
  | HardClip
  | Pad
  deriving DecidableEq

/-- Modelled from the spec: a single operation run, a kind with a length. -/
structure OperationRun where
  kind : OpKind
  length : Nat
  deriving DecidableEq

/-- Kinds that consume reference positions (spec section 4.1). -/
def OpKind.consumesRef : OpKind → Bool
  | .Match => true
  | .Deletion => true
  | .RefSkip => true
  | _ => false

/-- Kinds that consume query-sequence positions (spec section 4.1). -/
def OpKind.consumesQuery : OpKind → Bool
  | .Match => true
  | .Insertion => true
  | .SoftClip => true
  | _ => false

/-- Reference-consumed length of a run list (spec section 3: the lengths of
runs whose kind is Match, Deletion or RefSkip). -/
def refSpan : List OperationRun → Nat
  | [] => 0
  | r :: rest => (if r.kind.consumesRef then r.length else 0) + refSpan rest

/-- Query-consumed length of a run list (Match, Insertion, SoftClip). -/
def querySpan : List OperationRun → Nat
  | [] => 0
  | r :: rest => (if r.kind.consumesQuery then r.length else 0) + querySpan rest

/-- Modelled from the spec: the Alignment Record View (spec section 3); the
bam record struct itself is not under the visible sources. -/
structure AlignmentRecordView where
  reference_id : Option Int
  start : Int
  runs : List OperationRun
  query_length : Nat
  deriving DecidableEq

/-- Derived end position of a record: start plus its reference span
(spec section 3 calls this field `end`). -/
def AlignmentRecordView.endPos (v : AlignmentRecordView) : Int :=
  v.start + (refSpan v.runs : Int)

/-- Modelled from the spec: the per-position local alignment state exposed
by the Cigar Walker (spec section 4.4). -/
inductive WalkState where
  | Base (query_offset : Nat)
  | Deletion
  | RefSkip
  | Unavailable
  deriving DecidableEq

/-- Modelled from the spec: the position-translation walk of section 4.1 —
walk the runs accumulating reference-consumed and query-consumed lengths,
stop inside the run containing reference-relative offset `k`. -/
def stateAtOffset : List OperationRun → Nat → Nat → WalkState
  | [], _, _ => .Unavailable
  | r :: rest, k, qAcc =>
    if r.kind.consumesRef then
      if k < r.length then
        match r.kind with
        | .Match => .Base (qAcc + k)
        | .Deletion => .Deletion
        | .RefSkip => .RefSkip
        | _ => .Unavailable
      else
        stateAtOffset rest (k - r.length) (qAcc + (if r.kind.consumesQuery then r.length else 0))
    else
      stateAtOffset rest k (qAcc + (if r.kind.consumesQuery then r.length else 0))

/-- Modelled from the spec: Cigar Walker `state_at` (spec section 4.4);
positions outside the record's reference span are Unavailable. -/
def state_at (v : AlignmentRecordView) (p : Int) : WalkState :=
  if p < v.start ∨ v.endPos ≤ p then .Unavailable
  else stateAtOffset v.runs (p - v.start).toNat 0

/-- Helper: an all-Match walk translates offset `k` to `qAcc + k`. -/
theorem stateAtOffset_all_match (runs : List OperationRun) (k qAcc : Nat)
    (hm : ∀ r ∈ runs, r.kind = .Match) (hk : k < refSpan runs) :
    stateAtOffset runs k qAcc = .Base (qAcc + k) := by
  induction runs generalizing k qAcc with
  | nil => simp [refSpan] at hk
  | cons r rest ih =>
    have hr : r.kind = .Match := hm r (by simp)
    have hrest : ∀ x ∈ rest, x.kind = .Match := fun x hx => hm x (by simp [hx])
    have hspan : refSpan (r :: rest) = r.length + refSpan rest := by
      simp [refSpan, hr, OpKind.consumesRef]
    rw [hspan] at hk
    by_cases hlt : k < r.length
    · simp [stateAtOffset, hr, OpKind.consumesRef, hlt]
    · have hge : r.length ≤ k := Nat.le_of_not_lt hlt
      have hk' : k - r.length < refSpan rest := by omega
      have hstep : stateAtOffset (r :: rest) k qAcc =
          stateAtOffset rest (k - r.length) (qAcc + r.length) := by
        simp [stateAtOffset, hr, OpKind.consumesRef, OpKind.consumesQuery, hlt]
      rw [hstep, ih _ _ hrest hk']
      congr 1
      omega

/-- C2: for an alignment whose run list holds only Match runs, `state_at`
at any reference position `p` with `start ≤ p < end` yields the query
offset `p - start`. -/
theorem cigar_walker_all_match_state (v : AlignmentRecordView) (p : Int)
    (hm : ∀ r ∈ v.runs, r.kind = .Match)
    (hlo : v.start ≤ p) (hhi : p < v.endPos) :
    state_at v p = .Base (p - v.start).toNat := by
  have hnot : ¬(p < v.start ∨ v.endPos ≤ p) := by
    push_neg
    exact ⟨hlo, hhi⟩
  rw [state_at, if_neg hnot]
  have hk : (p - v.start).toNat < refSpan v.runs := by
    have : p - v.start < (refSpan v.runs : Int) := by
      have := hhi
      unfold AlignmentRecordView.endPos at this
      omega
    omega
  rw [stateAtOffset_all_match v.runs _ 0 hm hk]
  simp

/-- Witness for C2 on a concrete all-Match record. -/
theorem cigar_walker_all_match_state_witness :
    (∀ r ∈ [OperationRun.mk .Match 4], r.kind = .Match) ∧
      ((5 : Int) ≤ 7) ∧ ((7 : Int) < (AlignmentRecordView.mk (some 0) 5 [⟨.Match, 4⟩] 4).endPos) ∧
      state_at (AlignmentRecordView.mk (some 0) 5 [⟨.Match, 4⟩] 4) 7 = .Base 2 :=
  ⟨by decide, by decide, by decide,
    cigar_walker_all_match_state (AlignmentRecordView.mk (some 0) 5 [⟨.Match, 4⟩] 4) 7
      (by decide) (by decide) (by decide)⟩

/-- Helper: refSpan equals the filter-and-sum formulation of the spec. -/
theorem refSpan_eq_filter_sum (runs : List OperationRun) :
    refSpan runs =
      ((runs.filter (fun r =>
        r.kind = OpKind.Match ∨ r.kind = OpKind.Deletion ∨ r.kind = OpKind.RefSkip)).map
          OperationRun.length).sum := by
  induction runs with
  | nil => rfl
  | cons r rest ih =>
    rw [refSpan, ih]
    cases hk : r.kind <;>
      simp [OpKind.consumesRef, hk, List.filter_cons]

/-- C3: the derived end of an Alignment Record View is its start plus the
summed lengths of its Match, Deletion and RefSkip runs; `end ≥ start`
always holds, with equality exactly when the reference span is zero. -/
theorem record_view_end_invariant (v : AlignmentRecordView) :
    v.endPos = v.start +
        (((v.runs.filter (fun r =>
          r.kind = OpKind.Match ∨ r.kind = OpKind.Deletion ∨ r.kind = OpKind.RefSkip)).map
            OperationRun.length).sum : Int) ∧
      v.start ≤ v.endPos ∧ (v.endPos = v.start ↔ refSpan v.runs = 0) := by
  refine ⟨?_, ?_, ?_⟩
  · rw [AlignmentRecordView.endPos, refSpan_eq_filter_sum]
  · rw [AlignmentRecordView.endPos]
    omega
  · rw [AlignmentRecordView.endPos]
    omega

/-- Helper: refSpan distributes over append. -/
theorem refSpan_append (a b : List OperationRun) :
    refSpan (a ++ b) = refSpan a + refSpan b := by
  induction a with
  | nil => simp [refSpan]
  | cons r rest ih =>
    have hstep : refSpan ((r :: rest) ++ b) =
        (if r.kind.consumesRef then r.length else 0) + refSpan (rest ++ b) := rfl
    rw [hstep, ih, refSpan]
    omega

/-- Modelled from the spec: the indel event reported for a position
(src/lib.rs documents bam::pileup::Indel with variants Ins, Del, None). -/
inductive Indel where
  | None
  | Ins (length : Nat)
  | Del (length : Nat)
  deriving DecidableEq

/-- Modelled from the spec: indel detection at a reference-relative offset
(spec section 4.4): an insertion is reported at the reference position
immediately preceding the inserted bases, a deletion at its first deleted
reference position. -/
def indelAtOffset : List OperationRun → Nat → Indel
  | [], _ => .None
  | r :: rest, k =>
    if r.kind.consumesRef then
      if k < r.length then
        if r.kind = .Deletion ∧ k = 0 then .Del r.length
        else if k + 1 = r.length then
          match rest with
          | nxt :: _ => if nxt.kind = .Insertion then .Ins nxt.length else .None
          | [] => .None
        else .None
      else indelAtOffset rest (k - r.length)
    else indelAtOffset rest k

/-- Modelled from the spec: Cigar Walker `indel_starting_here`
(spec section 4.4). -/
def indel_starting_here (v : AlignmentRecordView) (p : Int) : Indel :=
  if p < v.start ∨ v.endPos ≤ p then .None
  else indelAtOffset v.runs (p - v.start).toNat

/-- Helper: walking a prefix whose full reference span is at most the
offset just passes through it. -/
theorem indelAtOffset_append (pre rest : List OperationRun) (k : Nat)
    (hk : refSpan pre ≤ k) :
    indelAtOffset (pre ++ rest) k = indelAtOffset rest (k - refSpan pre) := by
  induction pre generalizing k with
  | nil => simp [refSpan]
  | cons r pre' ih =>
    have hspan : refSpan (r :: pre') =
        (if r.kind.consumesRef then r.length else 0) + refSpan pre' := rfl
    by_cases hc : r.kind.consumesRef
    · rw [hspan, if_pos hc] at hk
      have hnlt : ¬k < r.length := by omega
      have : indelAtOffset ((r :: pre') ++ rest) k =
          indelAtOffset (pre' ++ rest) (k - r.length) := by
        simp [indelAtOffset, hc, hnlt]
      rw [this, ih _ (by omega), hspan, if_pos hc]
      congr 1
      omega
    · rw [hspan, if_neg hc] at hk
      have : indelAtOffset ((r :: pre') ++ rest) k =
          indelAtOffset (pre' ++ rest) k := by
        simp [indelAtOffset, hc]
      rw [this, ih _ (by omega), hspan, if_neg hc]
      simp


/-- C8: `indel_starting_here` reports an insertion at the reference
position immediately preceding the inserted bases (the last position of the
Match run before the Insertion run) and reports a deletion at its first
deleted reference position. -/
theorem cigar_walker_indel_reporting (v : AlignmentRecordView) (p : Int) :
    (∀ pre rest (m l : Nat), v.runs = pre ++ ⟨.Match, m⟩ :: ⟨.Insertion, l⟩ :: rest → 0 < m →
        p = v.start + (refSpan pre : Int) + (m : Int) - 1 →
        indel_starting_here v p = .Ins l) ∧
    (∀ pre rest (d : Nat), v.runs = pre ++ ⟨.Deletion, d⟩ :: rest → 0 < d →
        p = v.start + (refSpan pre : Int) →
        indel_starting_here v p = .Del d) := by
  constructor
  · intro pre rest m l hruns hm hp
    have hspan : refSpan v.runs = refSpan pre + (m + refSpan rest) := by
      rw [hruns, refSpan_append]
      simp [refSpan, OpKind.consumesRef]
    have hrange : ¬(p < v.start ∨ v.endPos ≤ p) := by
      push_neg
      unfold AlignmentRecordView.endPos
      rw [hspan]
      constructor <;> omega
    rw [indel_starting_here, if_neg hrange, hruns]
    have hk : (p - v.start).toNat = refSpan pre + (m - 1) := by omega
    rw [hk, indelAtOffset_append _ _ _ (by omega)]
    have hk2 : refSpan pre + (m - 1) - refSpan pre = m - 1 := by omega
    rw [hk2]
    have h1 : (m - 1) < m := by omega
    have hm1 : m - 1 + 1 = m := by omega
    simp [indelAtOffset, OpKind.consumesRef, h1, hm1]
  · intro pre rest d hruns hd hp
    have hspan : refSpan v.runs = refSpan pre + (d + refSpan rest) := by
      rw [hruns, refSpan_append]
      simp [refSpan, OpKind.consumesRef]
    have hrange : ¬(p < v.start ∨ v.endPos ≤ p) := by
      push_neg
      unfold AlignmentRecordView.endPos
      rw [hspan]
      constructor <;> omega
    rw [indel_starting_here, if_neg hrange, hruns]
    have hk : (p - v.start).toNat = refSpan pre := by omega
    rw [hk, indelAtOffset_append _ _ _ (le_refl _)]
    simp [indelAtOffset, OpKind.consumesRef, hd]

/-- Witness for C8 at the spec's own example: runs Match 5, Insertion 2,
Match 3 with start 100 report an insertion of length 2 at position 104, and
runs Match 3, Deletion 2, Match 3 with start 0 report a deletion of length
2 at position 3. -/
theorem cigar_walker_indel_reporting_witness :
    ((AlignmentRecordView.mk (some 0) 100 [⟨.Match, 5⟩, ⟨.Insertion, 2⟩, ⟨.Match, 3⟩] 10).runs =
        [] ++ ⟨.Match, 5⟩ :: ⟨.Insertion, 2⟩ :: [⟨.Match, 3⟩] ∧ 0 < 5 ∧
      (104 : Int) = 100 + (refSpan [] : Int) + 5 - 1 ∧
      indel_starting_here
        (AlignmentRecordView.mk (some 0) 100 [⟨.Match, 5⟩, ⟨.Insertion, 2⟩, ⟨.Match, 3⟩] 10)
        104 = .Ins 2) ∧
    ((AlignmentRecordView.mk (some 0) 0 [⟨.Match, 3⟩, ⟨.Deletion, 2⟩, ⟨.Match, 3⟩] 6).runs =
        [⟨.Match, 3⟩] ++ ⟨.Deletion, 2⟩ :: [⟨.Match, 3⟩] ∧ 0 < 2 ∧
      (3 : Int) = 0 + (refSpan [⟨.Match, 3⟩] : Int) ∧
      indel_starting_here
        (AlignmentRecordView.mk (some 0) 0 [⟨.Match, 3⟩, ⟨.Deletion, 2⟩, ⟨.Match, 3⟩] 6)
        3 = .Del 2) :=
  ⟨⟨by decide, by decide, by decide,
      (cigar_walker_indel_reporting
        (AlignmentRecordView.mk (some 0) 100 [⟨.Match, 5⟩, ⟨.Insertion, 2⟩, ⟨.Match, 3⟩] 10)
        104).1 [] [⟨.Match, 3⟩] 5 2 (by decide) (by decide) (by decide)⟩,
    ⟨by decide, by decide, by decide,
      (cigar_walker_indel_reporting
        (AlignmentRecordView.mk (some 0) 0 [⟨.Match, 3⟩, ⟨.Deletion, 2⟩, ⟨.Match, 3⟩] 6)
        3).2 [⟨.Match, 3⟩] [⟨.Match, 3⟩] 2 (by decide) (by decide) (by decide)⟩⟩

/-- Modelled from the spec: a storage-offset chunk of the Region Index
(spec section 3, Region Index Entry); the bam index module is not under the
visible sources. -/
structure Chunk where
  cstart : Nat
  cend : Nat
  deriving DecidableEq

/-- Modelled from the spec: an index bin — a covered genomic interval with
the storage chunks whose records may fall in it (spec section 3). -/
structure Bin where
  lo : Int
  hi : Int
  chunks : List Chunk
  deriving DecidableEq

/-- Modelled from the spec: the Region Index, mapping each known reference
id to its bins (spec sections 3 and 4.2). -/
structure RegionIndex where
  refs : List (Int × List Bin)
  deriving DecidableEq

/-- Modelled from the spec: failures of a Region Index lookup
(spec sections 4.2 and 7). -/
inductive RegionError where
  | UnknownReference
  | InvalidRegion
  deriving DecidableEq

/-- Bins of a reference id, if the reference is known to the index. -/
def findRef (idx : RegionIndex) (tid : Int) : Option (List Bin) :=
  (idx.refs.find? (fun pr => pr.1 == tid)).map (fun pr => pr.2)

/-- Insertion step of sorting chunks by ascending start offset. -/
def insertChunk (c : Chunk) : List Chunk → List Chunk
  | [] => [c]
  | d :: ds => if c.cstart ≤ d.cstart then c :: d :: ds else d :: insertChunk c ds

/-- Sort chunks ascending by start offset. -/
def sortChunks : List Chunk → List Chunk
  | [] => []
  | c :: cs => insertChunk c (sortChunks cs)

/-- Coalescing walk: merge the running chunk with the next one whenever they
overlap or are contiguous (spec section 4.2). -/
def coalesceGo : Chunk → List Chunk → List Chunk
  | cur, [] => [cur]
  | cur, d :: ds =>
    if d.cstart ≤ cur.cend then coalesceGo ⟨cur.cstart, max cur.cend d.cend⟩ ds
    else cur :: coalesceGo d ds

/-- Merge contiguous or overlapping chunks of a sorted chunk list. -/
def coalesce : List Chunk → List Chunk
  | [] => []
  | c :: cs => coalesceGo c cs

/-- Does a bin's interval intersect the half-open query interval. -/
def binOverlaps (s e : Int) (b : Bin) : Bool :=
  decide (b.lo < e) && decide (s < b.hi)

/-- Modelled from the spec: Region Index lookup (spec section 4.2) —
unknown reference fails, start past end fails, a negative start is clamped
to 0; the chunks of all bins overlapping the query are sorted and
coalesced. -/
def RegionIndex.lookup (idx : RegionIndex) (tid s e : Int) :
    Except RegionError (List Chunk) :=
  match findRef idx tid with
  | none => .error .UnknownReference
  | some bins =>
    if e < s then .error .InvalidRegion
    else
      .ok (coalesce (sortChunks
        ((bins.filter (binOverlaps (max s 0) e)).flatMap Bin.chunks)))

/-- Membership is preserved by chunk insertion. -/
theorem mem_insertChunk (c x : Chunk) (l : List Chunk) :
    x ∈ insertChunk c l ↔ x = c ∨ x ∈ l := by
  induction l with
  | nil => simp [insertChunk]
  | cons d ds ih =>
    by_cases h : c.cstart ≤ d.cstart
    · simp [insertChunk, h]
    · simp [insertChunk, h, ih]
      tauto

/-- Membership is preserved by chunk sorting. -/
theorem mem_sortChunks (x : Chunk) (l : List Chunk) :
    x ∈ sortChunks l ↔ x ∈ l := by
  induction l with
  | nil => simp [sortChunks]
  | cons c cs ih => simp [sortChunks, mem_insertChunk, ih]

/-- Inserting keeps the list sorted by ascending start offset. -/
theorem insertChunk_sorted (c : Chunk) (l : List Chunk)
    (hs : l.Pairwise (fun a b => a.cstart ≤ b.cstart)) :
    (insertChunk c l).Pairwise (fun a b => a.cstart ≤ b.cstart) := by
  induction l with
  | nil => simp [insertChunk]
  | cons d ds ih =>
    rcases List.pairwise_cons.mp hs with ⟨hd, hds⟩
    by_cases h : c.cstart ≤ d.cstart
    · rw [insertChunk, if_pos h]
      refine List.pairwise_cons.mpr ⟨?_, hs⟩
      intro x hx
      rcases List.mem_cons.mp hx with hx | hx
      · rw [hx]
        exact h
      · have := hd x hx
        omega
    · rw [insertChunk, if_neg h]
      refine List.pairwise_cons.mpr ⟨?_, ih hds⟩
      intro x hx
      rcases (mem_insertChunk c x ds).mp hx with hx | hx
      · rw [hx]
        omega
      · exact hd x hx

/-- Sorting produces a list sorted by ascending start offset. -/
theorem sortChunks_sorted (l : List Chunk) :
    (sortChunks l).Pairwise (fun a b => a.cstart ≤ b.cstart) := by
  induction l with
  | nil => simp [sortChunks]
  | cons c cs ih => exact insertChunk_sorted c _ ih

/-- Every chunk produced by the coalescing walk starts at or after the
running chunk's start. -/
theorem coalesceGo_start_le (l : List Chunk) (cur : Chunk)
    (hs : l.Pairwise (fun a b => a.cstart ≤ b.cstart))
    (hlb : ∀ d ∈ l, cur.cstart ≤ d.cstart) :
    ∀ x ∈ coalesceGo cur l, cur.cstart ≤ x.cstart := by
  induction l generalizing cur with
  | nil =>
    intro x hx
    simp [coalesceGo] at hx
    rw [hx]
  | cons d ds ih =>
    rcases List.pairwise_cons.mp hs with ⟨hd, hds⟩
    intro x hx
    by_cases h : d.cstart ≤ cur.cend
    · rw [coalesceGo, if_pos h] at hx
      exact ih ⟨cur.cstart, max cur.cend d.cend⟩ hds
        (fun y hy => le_trans (hlb d (by simp)) (hd y hy)) x hx
    · rw [coalesceGo, if_neg h] at hx
      rcases List.mem_cons.mp hx with hx | hx
      · rw [hx]
      · have := ih d hds hd x hx
        have := hlb d (by simp)
        omega

/-- The coalescing walk of a sorted list produces pairwise gapped chunks:
any earlier chunk ends strictly before any later chunk starts (so the
output is sorted, non-overlapping and fully merged). -/
theorem coalesceGo_gapped (l : List Chunk) (cur : Chunk)
    (hs : l.Pairwise (fun a b => a.cstart ≤ b.cstart))
    (hlb : ∀ d ∈ l, cur.cstart ≤ d.cstart) :
    (coalesceGo cur l).Pairwise (fun a b => a.cend < b.cstart) := by
  induction l generalizing cur with
  | nil => simp [coalesceGo]
  | cons d ds ih =>
    rcases List.pairwise_cons.mp hs with ⟨hd, hds⟩
    by_cases h : d.cstart ≤ cur.cend
    · rw [coalesceGo, if_pos h]
      exact ih ⟨cur.cstart, max cur.cend d.cend⟩ hds
        (fun y hy => le_trans (hlb d (by simp)) (hd y hy))
    · rw [coalesceGo, if_neg h]
      refine List.pairwise_cons.mpr ⟨?_, ih d hds hd⟩
      intro x hx
      have := coalesceGo_start_le ds d hds hd x hx
      omega

/-- The coalescing walk keeps chunks well formed. -/
theorem coalesceGo_wf (l : List Chunk) (cur : Chunk)
    (hcur : cur.cstart ≤ cur.cend) (hl : ∀ d ∈ l, d.cstart ≤ d.cend) :
    ∀ x ∈ coalesceGo cur l, x.cstart ≤ x.cend := by
  induction l generalizing cur with
  | nil =>
    intro x hx
    simp [coalesceGo] at hx
    rw [hx]
    exact hcur
  | cons d ds ih =>
    intro x hx
    by_cases h : d.cstart ≤ cur.cend
    · rw [coalesceGo, if_pos h] at hx
      refine ih ⟨cur.cstart, max cur.cend d.cend⟩ ?_ (fun y hy => hl y (by simp [hy])) x hx
      simp
      omega
    · rw [coalesceGo, if_neg h] at hx
      rcases List.mem_cons.mp hx with hx | hx
      · rw [hx]
        exact hcur
      · exact ih d (hl d (by simp)) (fun y hy => hl y (by simp [hy])) x hx

/-- A storage offset inside the running chunk or inside any chunk of a
sorted tail is inside some chunk of the coalescing walk's output. -/
theorem coalesceGo_covers (l : List Chunk) (cur : Chunk) (i : Nat)
    (hs : l.Pairwise (fun a b => a.cstart ≤ b.cstart))
    (hlb : ∀ d ∈ l, cur.cstart ≤ d.cstart)
    (hi : (cur.cstart ≤ i ∧ i < cur.cend) ∨ ∃ d ∈ l, d.cstart ≤ i ∧ i < d.cend) :
    ∃ x ∈ coalesceGo cur l, x.cstart ≤ i ∧ i < x.cend := by
  induction l generalizing cur with
  | nil =>
    rcases hi with hi | ⟨d, hd, _⟩
    · exact ⟨cur, by simp [coalesceGo], hi⟩
    · simp at hd
  | cons d ds ih =>
    rcases List.pairwise_cons.mp hs with ⟨hd, hds⟩
    by_cases h : d.cstart ≤ cur.cend
    · rw [coalesceGo, if_pos h]
      refine ih ⟨cur.cstart, max cur.cend d.cend⟩ hds
        (fun y hy => le_trans (hlb d (by simp)) (hd y hy)) ?_
      rcases hi with hi | ⟨d', hd', hi'⟩
      · left
        simp
        omega
      · rcases List.mem_cons.mp hd' with hd' | hd'
        · left
          have := hlb d (by simp)
          rw [hd'] at hi'
          simp
          omega
        · right
          exact ⟨d', hd', hi'⟩
    · rw [coalesceGo, if_neg h]
      rcases hi with hi | ⟨d', hd', hi'⟩
      · exact ⟨cur, by simp, hi⟩
      · rcases List.mem_cons.mp hd' with hd' | hd'
        · rw [hd'] at hi'
          rcases ih d hds hd (Or.inl hi') with ⟨x, hx, hxi⟩
          exact ⟨x, by simp [hx], hxi⟩
        · rcases ih d hds hd (Or.inr ⟨d', hd', hi'⟩) with ⟨x, hx, hxi⟩
          exact ⟨x, by simp [hx], hxi⟩

/-- Chunk well-formedness of every chunk stored in the index. -/
def indexWF (idx : RegionIndex) : Bool :=
  idx.refs.all (fun pr => pr.2.all (fun b => b.chunks.all (fun c => decide (c.cstart ≤ c.cend))))

/-- Does some chunk of the list contain the storage offset `i`. -/
def chunksContain (chunks : List Chunk) (i : Nat) : Bool :=
  chunks.any (fun c => decide (c.cstart ≤ i) && decide (i < c.cend))

/-- Is the record at storage offset `i` correctly binned: some bin of its
reference contains the record's whole reference span and one of that bin's
chunks contains the record's storage offset. -/
def recordBinned (idx : RegionIndex) (i : Nat) (r : AlignmentRecordView) : Bool :=
  match r.reference_id with
  | none => true
  | some tid =>
    match findRef idx tid with
    | none => false
    | some bins =>
      bins.any (fun b =>
        decide (b.lo ≤ r.start) && decide (r.endPos ≤ b.hi) && chunksContain b.chunks i)

/-- Walk of the conservativeness check, carrying the storage offset. -/
def indexCoversGo (idx : RegionIndex) : Nat → List AlignmentRecordView → Bool
  | _, [] => true
  | i, r :: rest => recordBinned idx i r && indexCoversGo idx (i + 1) rest

/-- Conservativeness of the index over a storage (the spec section 3
invariant: false negatives forbidden), checked record by record. -/
def indexCovers (idx : RegionIndex) (storage : List AlignmentRecordView) : Bool :=
  indexCoversGo idx 0 storage

/-- Helper: pointwise reading of the conservativeness walk. -/
theorem indexCoversGo_get (idx : RegionIndex) (l : List AlignmentRecordView) (n : Nat)
    (h : indexCoversGo idx n l = true) :
    ∀ j r, l.get? j = some r → recordBinned idx (n + j) r = true := by
  induction l generalizing n with
  | nil => intro j r hr; simp at hr
  | cons a rest ih =>
    rw [indexCoversGo, Bool.and_eq_true] at h
    intro j r hr
    cases j with
    | zero =>
      simp [List.get?] at hr
      rw [← hr]
      exact h.1
    | succ j' =>
      have := ih (n + 1) h.2 j' r (by simpa [List.get?] using hr)
      have harith : n + 1 + j' = n + (j' + 1) := by omega
      rw [harith] at this
      exact this

/-- Helper: chunks stored in a well-formed index are well formed. -/
theorem indexWF_chunk (idx : RegionIndex) (h : indexWF idx = true) :
    ∀ tid bins, findRef idx tid = some bins →
      ∀ b ∈ bins, ∀ c ∈ b.chunks, c.cstart ≤ c.cend := by
  intro tid bins hfind b hb c hc
  unfold findRef at hfind
  cases hf : idx.refs.find? (fun pr => pr.1 == tid) with
  | none => rw [hf] at hfind; simp at hfind
  | some pr =>
    rw [hf] at hfind
    simp at hfind
    have hmem : pr ∈ idx.refs := List.mem_of_find?_eq_some hf
    have := (List.all_eq_true.mp h) pr hmem
    have := (List.all_eq_true.mp this) b (by rw [hfind]; exact hb)
    have := (List.all_eq_true.mp this) c hc
    exact of_decide_eq_true this

/-- C4 (amended reading of C5 untouched): a successful Region Index lookup
returns chunks that are pairwise gapped — sorted ascending by storage
offset, non-overlapping, with contiguous or overlapping chunks merged —
and that cover the storage offset of every record of the queried reference
overlapping the clamped query interval (conservative superset). -/
theorem region_index_lookup_contract (idx : RegionIndex)
    (storage : List AlignmentRecordView) (tid s e : Int) (cs : List Chunk)
    (hwf : indexWF idx = true)
    (hcov : indexCovers idx storage = true)
    (hok : idx.lookup tid s e = .ok cs) :
    cs.Pairwise (fun a b => a.cend < b.cstart) ∧
      (∀ c ∈ cs, c.cstart ≤ c.cend) ∧
      (∀ i r, storage.get? i = some r → r.reference_id = some tid →
        r.start < e → max s 0 < r.endPos →
        ∃ c ∈ cs, c.cstart ≤ i ∧ i < c.cend) := by
  unfold RegionIndex.lookup at hok
  cases hfind : findRef idx tid with
  | none => rw [hfind] at hok; exact absurd hok (by simp)
  | some bins =>
    rw [hfind] at hok
    replace hok : (if e < s then (.error .InvalidRegion : Except RegionError (List Chunk))
        else .ok (coalesce (sortChunks
          ((bins.filter (binOverlaps (max s 0) e)).flatMap Bin.chunks)))) = .ok cs := hok
    by_cases hse : e < s
    · rw [if_pos hse] at hok
      exact absurd hok (by simp)
    · rw [if_neg hse] at hok
      have hcs : cs = coalesce (sortChunks
          ((bins.filter (binOverlaps (max s 0) e)).flatMap Bin.chunks)) := by
        have := hok
        simp at this
        exact this.symm
      set sel := (bins.filter (binOverlaps (max s 0) e)).flatMap Bin.chunks with hsel
      have hselwf : ∀ c ∈ sel, c.cstart ≤ c.cend := by
        intro c hc
        rw [hsel, List.mem_flatMap] at hc
        rcases hc with ⟨b, hb, hcb⟩
        exact indexWF_chunk idx hwf tid bins hfind b (List.mem_of_mem_filter hb) c hcb
      have hsorted := sortChunks_sorted sel
      have hmems : ∀ x, x ∈ sortChunks sel ↔ x ∈ sel := fun x => mem_sortChunks x sel
      refine ⟨?_, ?_, ?_⟩
      · rw [hcs]
        cases hss : sortChunks sel with
        | nil => simp [coalesce]
        | cons c0 cs0 =>
          rw [coalesce]
          rw [hss] at hsorted
          rcases List.pairwise_cons.mp hsorted with ⟨hd0, hds0⟩
          exact coalesceGo_gapped cs0 c0 hds0 hd0
      · rw [hcs]
        cases hss : sortChunks sel with
        | nil => simp [coalesce]
        | cons c0 cs0 =>
          rw [coalesce]
          have hwf0 : ∀ x ∈ c0 :: cs0, x.cstart ≤ x.cend := by
            intro x hx
            exact hselwf x ((hmems x).mp (hss ▸ hx))
          exact coalesceGo_wf cs0 c0 (hwf0 c0 (by simp))
            (fun y hy => hwf0 y (by simp [hy]))
      · intro i r hget htid hs1 hs2
        have hbinned := indexCoversGo_get idx storage 0 hcov i r (by simpa using hget)
        rw [recordBinned, htid] at hbinned
        simp only [hfind] at hbinned
        rcases List.any_eq_true.mp hbinned with ⟨b, hbmem, hbtrue⟩
        rw [Bool.and_eq_true, Bool.and_eq_true] at hbtrue
        rcases hbtrue with ⟨⟨hblo, hbhi⟩, hbchunk⟩
        have hblo := of_decide_eq_true hblo
        have hbhi := of_decide_eq_true hbhi
        rcases List.any_eq_true.mp hbchunk with ⟨cch, hcchmem, hcchtrue⟩
        rw [Bool.and_eq_true] at hcchtrue
        have hc1 : cch.cstart ≤ i := by
          have := of_decide_eq_true hcchtrue.1
          omega
        have hc2 : i < cch.cend := by
          have := of_decide_eq_true hcchtrue.2
          omega
        have hbfilter : b ∈ bins.filter (binOverlaps (max s 0) e) := by
          rw [List.mem_filter]
          refine ⟨hbmem, ?_⟩
          rw [binOverlaps, Bool.and_eq_true]
          constructor
          · exact decide_eq_true (by omega)
          · exact decide_eq_true (by omega)
        have hcsel : cch ∈ sel := by
          rw [hsel, List.mem_flatMap]
          exact ⟨b, hbfilter, hcchmem⟩
        have hcsort : cch ∈ sortChunks sel := (hmems cch).mpr hcsel
        rw [hcs]
        cases hss : sortChunks sel with
        | nil => rw [hss] at hcsort; simp at hcsort
        | cons c0 cs0 =>
          rw [coalesce]
          rw [hss] at hsorted hcsort
          rcases List.pairwise_cons.mp hsorted with ⟨hd0, hds0⟩
          rcases List.mem_cons.mp hcsort with hcc | hcc
          · exact coalesceGo_covers cs0 c0 i hds0 hd0 (Or.inl (hcc ▸ ⟨hc1, hc2⟩))
          · exact coalesceGo_covers cs0 c0 i hds0 hd0 (Or.inr ⟨cch, hcc, hc1, hc2⟩)

/-- Witness for C4 on a concrete index over a two-record storage: the two
contiguous chunks are merged into one. -/
theorem region_index_lookup_contract_witness :
    indexWF ⟨[(0, [⟨0, 16, [⟨0, 1⟩, ⟨1, 2⟩]⟩])]⟩ = true ∧
      indexCovers ⟨[(0, [⟨0, 16, [⟨0, 1⟩, ⟨1, 2⟩]⟩])]⟩
        [⟨some 0, 0, [⟨.Match, 5⟩], 5⟩, ⟨some 0, 4, [⟨.Match, 6⟩], 6⟩] = true ∧
      RegionIndex.lookup ⟨[(0, [⟨0, 16, [⟨0, 1⟩, ⟨1, 2⟩]⟩])]⟩ 0 0 8 = .ok [⟨0, 2⟩] ∧
      (List.Pairwise (fun a b => a.cend < b.cstart) [(⟨0, 2⟩ : Chunk)] ∧
        (∀ c ∈ [(⟨0, 2⟩ : Chunk)], c.cstart ≤ c.cend) ∧
        (∀ i r,
          [⟨some 0, 0, [⟨.Match, 5⟩], 5⟩,
            (⟨some 0, 4, [⟨.Match, 6⟩], 6⟩ : AlignmentRecordView)].get? i = some r →
          r.reference_id = some 0 → r.start < 8 → max 0 0 < r.endPos →
          ∃ c ∈ [(⟨0, 2⟩ : Chunk)], c.cstart ≤ i ∧ i < c.cend)) :=
  ⟨by decide, by decide, rfl,
    region_index_lookup_contract ⟨[(0, [⟨0, 16, [⟨0, 1⟩, ⟨1, 2⟩]⟩])]⟩
      [⟨some 0, 0, [⟨.Match, 5⟩], 5⟩, ⟨some 0, 4, [⟨.Match, 6⟩], 6⟩] 0 0 8 [⟨0, 2⟩]
      (by decide) (by decide) rfl⟩

/-- Helper: unfolding of a lookup whose reference is known. -/
theorem lookup_eq_of_found (idx : RegionIndex) (tid s e : Int) (bins : List Bin)
    (hf : findRef idx tid = some bins) :
    idx.lookup tid s e = if e < s then .error .InvalidRegion
      else .ok (coalesce (sortChunks
        ((bins.filter (binOverlaps (max s 0) e)).flatMap Bin.chunks))) := by
  unfold RegionIndex.lookup
  rw [hf]

/-- C5 (amended): lookup fails with UnknownReference exactly when the
reference id is not in the index; when the reference is known it fails with
InvalidRegion exactly when start exceeds end; and a negative start does not
make it fail — the start is clamped to 0 and the lookup proceeds. -/
theorem region_index_lookup_errors (idx : RegionIndex) (tid s e : Int) :
    (idx.lookup tid s e = .error .UnknownReference ↔ findRef idx tid = none) ∧
      (findRef idx tid ≠ none →
        (idx.lookup tid s e = .error .InvalidRegion ↔ e < s)) ∧
      (findRef idx tid ≠ none → s ≤ e → ∃ cs, idx.lookup tid s e = .ok cs) ∧
      (0 ≤ e → s < 0 → idx.lookup tid s e = idx.lookup tid 0 e) := by
  cases hf : findRef idx tid with
  | none =>
    have hl : ∀ s' : Int, idx.lookup tid s' e = .error .UnknownReference := by
      intro s'
      unfold RegionIndex.lookup
      rw [hf]
    refine ⟨by simp [hl], fun hne => absurd rfl hne, fun hne => absurd rfl hne, ?_⟩
    intro _ _
    rw [hl s, hl 0]
  | some bins =>
    have hl : ∀ s' : Int, idx.lookup tid s' e = if e < s' then .error .InvalidRegion
        else .ok (coalesce (sortChunks
          ((bins.filter (binOverlaps (max s' 0) e)).flatMap Bin.chunks))) :=
      fun s' => lookup_eq_of_found idx tid s' e bins hf
    refine ⟨?_, ?_, ?_, ?_⟩
    · rw [hl s]
      by_cases hse : e < s <;> simp [hse, hf]
    · intro _
      rw [hl s]
      by_cases hse : e < s <;> simp [hse]
    · intro _ hse
      rw [hl s, if_neg (by omega)]
      exact ⟨_, rfl⟩
    · intro he hs
      rw [hl s, hl 0, if_neg (by omega), if_neg (by omega)]
      have hmax : max s 0 = (0 : Int) := max_eq_right (le_of_lt hs)
      rw [hmax]
      have hmax0 : max (0 : Int) 0 = (0 : Int) := by simp
      rw [hmax0]

/-- Witness for C5 on a concrete index: a known reference queried with a
negative start succeeds and equals the clamped query. -/
theorem region_index_lookup_errors_witness :
    (findRef ⟨[(0, [⟨0, 16, [⟨0, 2⟩]⟩])]⟩ 0 ≠ none) ∧ ((-5 : Int) ≤ 10) ∧
      (∃ cs, RegionIndex.lookup ⟨[(0, [⟨0, 16, [⟨0, 2⟩]⟩])]⟩ 0 (-5) 10 = .ok cs) ∧
      ((0 : Int) ≤ 10) ∧ ((-5 : Int) < 0) ∧
      RegionIndex.lookup ⟨[(0, [⟨0, 16, [⟨0, 2⟩]⟩])]⟩ 0 (-5) 10 =
        RegionIndex.lookup ⟨[(0, [⟨0, 16, [⟨0, 2⟩]⟩])]⟩ 0 0 10 :=
  ⟨by decide, by decide,
    (region_index_lookup_errors ⟨[(0, [⟨0, 16, [⟨0, 2⟩]⟩])]⟩ 0 (-5) 10).2.2.1
      (by decide) (by decide),
    by decide, by decide,
    (region_index_lookup_errors ⟨[(0, [⟨0, 16, [⟨0, 2⟩]⟩])]⟩ 0 (-5) 10).2.2.2
      (by decide) (by decide)⟩

/-- Counterexample to C5 as stated: with an unknown reference and start
past end, the lookup fails with UnknownReference, not InvalidRegion, so
"fails with InvalidRegion exactly when start > end" does not hold without
conditioning on a known reference. -/
theorem region_index_error_precedence_counterexample :
    RegionIndex.lookup ⟨[]⟩ 0 5 3 = .error .UnknownReference ∧
      (3 : Int) < 5 ∧
      ¬RegionIndex.lookup ⟨[]⟩ 0 5 3 = .error .InvalidRegion := by
  refine ⟨rfl, by decide, ?_⟩
  intro h
  rw [show RegionIndex.lookup ⟨[]⟩ 0 5 3 = .error .UnknownReference from rfl] at h
  simp at h

/-- Modelled from the spec: the per-record filter of the Region Cursor
(spec section 4.3) — keep records of the target reference whose span
intersects the query interval; skip `reference_id` mismatches, `end` at or
before the query start, and `start` at or past the query end. -/
def keepRec (tid s e : Int) (r : AlignmentRecordView) : Bool :=
  (r.reference_id == some tid) && decide (s < r.endPos) && decide (r.start < e)

/-- Records stored in one chunk's byte range; storage offsets are record
indices in this model. -/
def chunkSlice (storage : List AlignmentRecordView) (c : Chunk) :
    List AlignmentRecordView :=
  (storage.drop c.cstart).take (c.cend - c.cstart)

/-- Modelled from the spec: the early stop of section 4.3 — stop consuming
a chunk once a record of the target reference starts at or past the query
end (the backend stores records of a reference in non-decreasing start
order). -/
def scanChunk (tid e : Int) : List AlignmentRecordView → List AlignmentRecordView
  | [] => []
  | r :: rest =>
    if (r.reference_id == some tid) && decide (e ≤ r.start) then []
    else r :: scanChunk tid e rest

/-- Modelled from the spec: the Region Cursor (spec section 4.3) — consume
each chunk's record stream in storage order, stop early per chunk, and
yield only records that actually overlap the query. -/
def cursorRun (storage : List AlignmentRecordView) (chunks : List Chunk)
    (tid s e : Int) : List AlignmentRecordView :=
  chunks.flatMap
    (fun c => (scanChunk tid e (chunkSlice storage c)).filter (keepRec tid s e))

/-- Walk of the chunk-coverage check: every record accepted by the filter
must lie in some chunk. -/
def chunksCoverGo (chunks : List Chunk) (keep : AlignmentRecordView → Bool) :
    Nat → List AlignmentRecordView → Bool
  | _, [] => true
  | i, r :: rest =>
    (!keep r || chunksContain chunks i) && chunksCoverGo chunks keep (i + 1) rest

/-- The chunk list covers the storage offset of every record that overlaps
the query (the conservativeness the Region Index guarantees). -/
def chunksCover (storage : List AlignmentRecordView) (chunks : List Chunk)
    (tid s e : Int) : Bool :=
  chunksCoverGo chunks (keepRec tid s e) 0 storage

/-- Helper: pointwise reading of the chunk-coverage walk. -/
theorem chunksCoverGo_get (chunks : List Chunk) (keep : AlignmentRecordView → Bool)
    (l : List AlignmentRecordView) (n : Nat)
    (h : chunksCoverGo chunks keep n l = true) :
    ∀ j r, l.get? j = some r → keep r = true → chunksContain chunks (n + j) = true := by
  induction l generalizing n with
  | nil => intro j r hr; simp at hr
  | cons a rest ih =>
    rw [chunksCoverGo, Bool.and_eq_true] at h
    intro j r hr hk
    cases j with
    | zero =>
      simp [List.get?] at hr
      have h1 := h.1
      rw [hr, hk] at h1
      simpa using h1
    | succ j' =>
      have := ih (n + 1) h.2 j' r (by simpa [List.get?] using hr) hk
      have harith : n + 1 + j' = n + (j' + 1) := by omega
      rw [harith] at this
      exact this

/-- Helper: the early stop drops only records the filter rejects, so
filtering after the stop equals filtering the whole slice, given storage
order within the target reference. -/
theorem scanChunk_filter (tid s e : Int) (l : List AlignmentRecordView)
    (hs : l.Pairwise (fun a b =>
      a.reference_id = some tid → b.reference_id = some tid → a.start ≤ b.start)) :
    (scanChunk tid e l).filter (keepRec tid s e) = l.filter (keepRec tid s e) := by
  induction l with
  | nil => rfl
  | cons r rest ih =>
    rcases List.pairwise_cons.mp hs with ⟨hr, hrest⟩
    by_cases hstop : ((r.reference_id == some tid) && decide (e ≤ r.start)) = true
    · rw [scanChunk, if_pos hstop, List.filter_nil]
      rw [Bool.and_eq_true] at hstop
      have htid : r.reference_id = some tid := by
        have := hstop.1
        simpa using this
      have hge : e ≤ r.start := of_decide_eq_true hstop.2
      symm
      rw [List.filter_eq_nil_iff]
      intro x hx
      rcases List.mem_cons.mp hx with hx | hx
      · rw [hx]
        intro hkeep
        rw [keepRec, Bool.and_eq_true, Bool.and_eq_true] at hkeep
        have := of_decide_eq_true hkeep.2
        omega
      · intro hkeep
        rw [keepRec, Bool.and_eq_true, Bool.and_eq_true] at hkeep
        have hxtid : x.reference_id = some tid := by simpa using hkeep.1.1
        have hxlt : x.start < e := of_decide_eq_true hkeep.2
        have := hr x hx htid hxtid
        omega
    · rw [scanChunk, if_neg hstop, List.filter_cons, List.filter_cons, ih hrest]

/-- Helper: concatenating the filtered slices of gapped covering chunks
recovers the filtered storage suffix. -/
theorem cursor_chunks_filter (storage : List AlignmentRecordView)
    (keep : AlignmentRecordView → Bool) (chunks : List Chunk) (n : Nat)
    (hlb : ∀ c ∈ chunks, n ≤ c.cstart)
    (hgap : chunks.Pairwise (fun a b => a.cend ≤ b.cstart))
    (hwf : ∀ c ∈ chunks, c.cstart ≤ c.cend)
    (hcov : ∀ j r, storage.get? j = some r → keep r = true → n ≤ j →
      chunksContain chunks j = true) :
    chunks.flatMap (fun c => (chunkSlice storage c).filter keep) =
      (storage.drop n).filter keep := by
  induction chunks generalizing n with
  | nil =>
    symm
    simp only [List.flatMap_nil]
    rw [List.filter_eq_nil_iff]
    intro x hx
    rcases List.mem_iff_get?.mp hx with ⟨j, hj⟩
    intro hk
    have := hcov (n + j) x (by rw [← List.get?_drop]; exact hj) hk (by omega)
    simp [chunksContain] at this
  | cons c rest ih =>
    rcases List.pairwise_cons.mp hgap with ⟨hc, hrest⟩
    have hcwf : c.cstart ≤ c.cend := hwf c (by simp)
    have hcn : n ≤ c.cstart := hlb c (by simp)
    have h2 : (storage.drop n).drop (c.cstart - n) = storage.drop c.cstart := by
      rw [List.drop_drop]
      congr 1
      omega
    have h3 : storage.drop c.cstart =
        chunkSlice storage c ++ (storage.drop c.cstart).drop (c.cend - c.cstart) :=
      (List.take_append_drop _ _).symm
    have h4 : (storage.drop c.cstart).drop (c.cend - c.cstart) = storage.drop c.cend := by
      rw [List.drop_drop]
      congr 1
      omega
    have hsplit : storage.drop n =
        ((storage.drop n).take (c.cstart - n)) ++
          (chunkSlice storage c ++ storage.drop c.cend) :=
      calc storage.drop n
          = (storage.drop n).take (c.cstart - n) ++ (storage.drop n).drop (c.cstart - n) :=
            (List.take_append_drop _ _).symm
        _ = (storage.drop n).take (c.cstart - n) ++ storage.drop c.cstart := by rw [h2]
        _ = (storage.drop n).take (c.cstart - n) ++
              (chunkSlice storage c ++ storage.drop c.cend) := by rw [h3, h4]
    rw [List.flatMap_cons, hsplit, List.filter_append, List.filter_append]
    have hfirst : ((storage.drop n).take (c.cstart - n)).filter keep = [] := by
      rw [List.filter_eq_nil_iff]
      intro x hx hk
      rcases List.mem_iff_get?.mp hx with ⟨j, hj⟩
      have hjlt : j < c.cstart - n := by
        have hlen := List.get?_eq_some.mp hj
        rcases hlen with ⟨hlt, _⟩
        have := List.length_take_le (c.cstart - n) (storage.drop n)
        omega
      have hj2 : storage.get? (n + j) = some x := by
        rw [← List.get?_drop]
        rw [List.get?_take hjlt] at hj
        exact hj
      have := hcov (n + j) x hj2 hk (by omega)
      rcases List.any_eq_true.mp this with ⟨c', hc', hcc'⟩
      rw [Bool.and_eq_true] at hcc'
      have hcc1 := of_decide_eq_true hcc'.1
      have hcc2 := of_decide_eq_true hcc'.2
      rcases List.mem_cons.mp hc' with hc' | hc'
      · rw [hc'] at hcc1 hcc2
        omega
      · have := hc c' hc'
        have := hwf c' (by simp [hc'])
        omega
    have htail : rest.flatMap (fun d => (chunkSlice storage d).filter keep) =
        (storage.drop c.cend).filter keep := by
      refine ih c.cend (fun d hd => ?_) hrest (fun d hd => hwf d (by simp [hd]))
        (fun j r hj hk hjge => ?_)
      · exact hc d hd
      · have := hcov j r hj hk (by omega)
        rcases List.any_eq_true.mp this with ⟨c', hc', hcc'⟩
        rw [Bool.and_eq_true] at hcc'
        have hcc1 := of_decide_eq_true hcc'.1
        have hcc2 := of_decide_eq_true hcc'.2
        rcases List.mem_cons.mp hc' with hc'' | hc''
        · rw [hc''] at hcc1 hcc2
          omega
        · rw [chunksContain, List.any_eq_true]
          exact ⟨c', hc'', by
            rw [Bool.and_eq_true]
            exact ⟨decide_eq_true hcc1, decide_eq_true hcc2⟩⟩
    rw [hfirst, htail, List.nil_append]

/-- C1: for a valid query on a known reference, the Region Cursor yields
exactly the records whose span intersects the query interval — as a list
equation against the filtered storage, so no duplicates and no omissions —
for any chunk list that is sorted, non-overlapping and conservative,
independent of chunk granularity. -/
theorem region_cursor_exact (storage : List AlignmentRecordView)
    (chunks : List Chunk) (tid s e : Int)
    (hq : s < e)
    (hsort : storage.Pairwise (fun a b =>
      a.reference_id = some tid → b.reference_id = some tid → a.start ≤ b.start))
    (hgap : chunks.Pairwise (fun a b => a.cend ≤ b.cstart))
    (hwf : ∀ c ∈ chunks, c.cstart ≤ c.cend)
    (hcov : chunksCover storage chunks tid s e = true) :
    cursorRun storage chunks tid s e = storage.filter (keepRec tid s e) := by
  have hslice : ∀ c : Chunk, (chunkSlice storage c).Pairwise (fun a b =>
      a.reference_id = some tid → b.reference_id = some tid → a.start ≤ b.start) := by
    intro c
    refine hsort.sublist ?_
    exact (List.take_sublist _ _).trans (List.drop_sublist _ _)
  have hcongr : ∀ cl : List Chunk,
      cl.flatMap (fun c =>
        (scanChunk tid e (chunkSlice storage c)).filter (keepRec tid s e)) =
      cl.flatMap (fun c => (chunkSlice storage c).filter (keepRec tid s e)) := by
    intro cl
    induction cl with
    | nil => rfl
    | cons c cs ih =>
      rw [List.flatMap_cons, List.flatMap_cons, ih,
        scanChunk_filter tid s e _ (hslice c)]
  rw [cursorRun, hcongr]
  have hmain := cursor_chunks_filter storage (keepRec tid s e) chunks 0
    (fun c _ => Nat.zero_le _) hgap hwf
    (fun j r hj hk _ => by
      simpa using chunksCoverGo_get chunks (keepRec tid s e) storage 0 hcov j r hj hk)
  rw [hmain, List.drop_zero]

/-- Witness for C1 on a three-record storage split into two chunks: the
record of another reference and the filtering are exercised. -/
theorem region_cursor_exact_witness :
    ((2 : Int) < 5) ∧
      ([⟨some 0, 0, [⟨.Match, 3⟩], 3⟩, ⟨some 1, 1, [⟨.Match, 5⟩], 5⟩,
        (⟨some 0, 4, [⟨.Match, 2⟩], 2⟩ : AlignmentRecordView)].Pairwise (fun a b =>
          a.reference_id = some 0 → b.reference_id = some 0 → a.start ≤ b.start)) ∧
      ([(⟨0, 2⟩ : Chunk), ⟨2, 3⟩].Pairwise (fun a b => a.cend ≤ b.cstart)) ∧
      (∀ c ∈ [(⟨0, 2⟩ : Chunk), ⟨2, 3⟩], c.cstart ≤ c.cend) ∧
      chunksCover [⟨some 0, 0, [⟨.Match, 3⟩], 3⟩, ⟨some 1, 1, [⟨.Match, 5⟩], 5⟩,
        ⟨some 0, 4, [⟨.Match, 2⟩], 2⟩] [⟨0, 2⟩, ⟨2, 3⟩] 0 2 5 = true ∧
      cursorRun [⟨some 0, 0, [⟨.Match, 3⟩], 3⟩, ⟨some 1, 1, [⟨.Match, 5⟩], 5⟩,
          ⟨some 0, 4, [⟨.Match, 2⟩], 2⟩] [⟨0, 2⟩, ⟨2, 3⟩] 0 2 5 =
        [⟨some 0, 0, [⟨.Match, 3⟩], 3⟩, ⟨some 1, 1, [⟨.Match, 5⟩], 5⟩,
          (⟨some 0, 4, [⟨.Match, 2⟩], 2⟩ : AlignmentRecordView)].filter (keepRec 0 2 5) :=
  ⟨by decide, by decide, by decide, by decide, by decide,
    region_cursor_exact
      [⟨some 0, 0, [⟨.Match, 3⟩], 3⟩, ⟨some 1, 1, [⟨.Match, 5⟩], 5⟩,
        ⟨some 0, 4, [⟨.Match, 2⟩], 2⟩] [⟨0, 2⟩, ⟨2, 3⟩] 0 2 5
      (by decide) (by decide) (by decide) (by decide) (by decide)⟩

/-- Modelled from the spec: the errors a cursor item can carry into the
pileup sweep (spec section 7). -/
inductive RecErr where
  | MalformedRecord
  | StorageError
  deriving DecidableEq

/-- An item pulled from the Region Cursor record stream: a decoded record,
or the error produced in its place. -/
abbrev CursorItem := Except RecErr AlignmentRecordView

/-- Decidable equality for Except values, needed to evaluate the engine on
concrete inputs. -/
def exceptDecEq {ε α : Type} [DecidableEq ε] [DecidableEq α] :
    DecidableEq (Except ε α)
  | .error a, .error b =>
    if h : a = b then .isTrue (by rw [h]) else .isFalse (fun hc => h (Except.error.inj hc))
  | .error _, .ok _ => .isFalse (fun hc => Except.noConfusion hc)
  | .ok _, .error _ => .isFalse (fun hc => Except.noConfusion hc)
  | .ok a, .ok b =>
    if h : a = b then .isTrue (by rw [h]) else .isFalse (fun hc => h (Except.ok.inj hc))

instance {ε α : Type} [DecidableEq ε] [DecidableEq α] : DecidableEq (Except ε α) :=
  exceptDecEq

/-- A pileup column entry: a record together with its Cigar Walker state at
the column's position (spec section 3, Pileup Column). -/
structure PileupEntry where
  record : AlignmentRecordView
  state : WalkState
  deriving DecidableEq

/-- Modelled from the spec: a Pileup Column (spec section 3). -/
structure Column where
  reference_id : Int
  position : Int
  entries : List PileupEntry
  deriving DecidableEq

/-- Is the entry inside a deletion at the column's position (src/lib.rs
documents bam::pileup::Alignment::is_del). -/
def PileupEntry.is_del (a : PileupEntry) : Bool := a.state == .Deletion

/-- Is the entry inside a reference skip at the column's position. -/
def PileupEntry.is_refskip (a : PileupEntry) : Bool := a.state == .RefSkip

/-- Query position of the entry within its read, when it has one
(src/lib.rs documents alignment.qpos() being unwrapped only after the
is_del and is_refskip checks). -/
def PileupEntry.qpos (a : PileupEntry) : Option Nat :=
  match a.state with
  | .Base q => some q
  | _ => none

/-- Modelled from the spec: the numeric depth of a column is a derived
count of its entries that excludes deletions and reference skips
(spec section 4.5: such alignments are listed but excluded from the
numeric depth). -/
def Column.depth (c : Column) : Nat :=
  (c.entries.filter (fun a => ! a.is_del && ! a.is_refskip)).length

/-- Column emitted for a position from the active records. -/
def colOf (tid pos : Int) (active : List AlignmentRecordView) : Column :=
  ⟨tid, pos, active.map (fun v => ⟨v, state_at v pos⟩)⟩

/-- Modelled from the spec: pull the admissible prefix of the pending
cursor stream at a position — leading errors and records whose start has
been reached; a malformed record is reported and skipped, a storage error
is reported and aborts (spec sections 4.5 and 7).  Returns reported
errors, admitted records, the remaining stream, and the abort flag. -/
def pullReady (pos : Int) :
    List CursorItem →
      List RecErr × List AlignmentRecordView × List CursorItem × Bool
  | [] => ([], [], [], false)
  | .error .StorageError :: _ => ([.StorageError], [], [], true)
  | .error .MalformedRecord :: rest =>
    let out := pullReady pos rest
    (.MalformedRecord :: out.1, out.2.1, out.2.2.1, out.2.2.2)
  | .ok v :: rest =>
    if v.start ≤ pos then
      let out := pullReady pos rest
      (out.1, v :: out.2.1, out.2.2.1, out.2.2.2)
    else ([], [], .ok v :: rest, false)

/-- Start position of the next pending record, skipping error items. -/
def firstStart : List CursorItem → Option Int
  | [] => none
  | .ok v :: _ => some v.start
  | .error _ :: rest => firstStart rest

/-- Remaining reference span of the active records past a position. -/
def activeRem (pos : Int) (active : List AlignmentRecordView) : Nat :=
  (active.map (fun v => (v.endPos - pos).toNat)).sum

/-- Size of the pending stream: item count plus carried reference spans. -/
def pendingCost (pending : List CursorItem) : Nat :=
  pending.length +
    ((pending.filterMap Except.toOption).map (fun v => refSpan v.runs)).sum

/-- Termination measure of the sweep. -/
def sweepMeasure (pos : Int) (active : List AlignmentRecordView)
    (pending : List CursorItem) : Nat :=
  pendingCost pending + activeRem pos active

/-- Records still running at a position: eviction keeps `pos < end`. -/
def evicted (pos : Int) (active : List AlignmentRecordView) :
    List AlignmentRecordView :=
  active.filter (fun v => decide (pos < v.endPos))

/-- Position the sweep works at this step: the current position, or — when
nothing is active — the jump to the next pending record's start
(spec section 4.5, the skip-forward transition). -/
def sweepPos (pos : Int) (active : List AlignmentRecordView)
    (pending : List CursorItem) : Int :=
  if (evicted pos active).isEmpty then
    match firstStart pending with
    | some s0 => max pos s0
    | none => pos
  else pos

/-- Modelled from the spec: the fuelled body of the Pileup Engine sweep
(spec section 4.5): evict records whose end was passed, jump to the next
pending start when nothing is active, admit pending records whose start is
reached, emit a column when records are active, then advance one position;
a malformed record only misses admission, a storage error ends the sweep. -/
def sweepGo (tid : Int) :
    Nat → Int → List AlignmentRecordView → List CursorItem →
      List (Except RecErr Column)
  | 0, _, _, _ => []
  | fuel + 1, pos, active, pending =>
    let actualPos := sweepPos pos active pending
    let out := pullReady actualPos pending
    let errOut : List (Except RecErr Column) := out.1.map .error
    if out.2.2.2 then errOut
    else
      let active1 := (evicted pos active ++ out.2.1).filter
        (fun v => decide (actualPos < v.endPos))
      if active1.isEmpty then
        if out.2.2.1.isEmpty then errOut
        else errOut ++ sweepGo tid fuel (actualPos + 1) active1 out.2.2.1
      else
        errOut ++ .ok (colOf tid actualPos active1) ::
          sweepGo tid fuel (actualPos + 1) active1 out.2.2.1

/-- The Pileup Engine sweep, run with enough fuel to terminate. -/
def sweep (tid pos : Int) (active : List AlignmentRecordView)
    (pending : List CursorItem) : List (Except RecErr Column) :=
  sweepGo tid (sweepMeasure pos active pending + 1) pos active pending

/-- Cost of a pending stream headed by an error item. -/
theorem pendingCost_error_cons (er : RecErr) (rest : List CursorItem) :
    pendingCost (.error er :: rest) = 1 + pendingCost rest := by
  simp [pendingCost, List.filterMap_cons, Except.toOption]
  omega

/-- Cost of a pending stream headed by a record item. -/
theorem pendingCost_ok_cons (v : AlignmentRecordView) (rest : List CursorItem) :
    pendingCost (.ok v :: rest) = 1 + refSpan v.runs + pendingCost rest := by
  simp [pendingCost, List.filterMap_cons, Except.toOption]
  omega

/-- Admitted records have started at or before the pull position. -/
theorem pullReady_admits_le (pos : Int) (pending : List CursorItem) :
    ∀ v ∈ (pullReady pos pending).2.1, v.start ≤ pos := by
  induction pending with
  | nil => simp [pullReady]
  | cons it rest ih =>
    match it with
    | .error .StorageError => simp [pullReady]
    | .error .MalformedRecord => simpa [pullReady] using ih
    | .ok v =>
      by_cases h : v.start ≤ pos
      · intro w hw
        rw [pullReady, if_pos h] at hw
        simp at hw
        rcases hw with hw | hw
        · rw [hw]; exact h
        · exact ih w hw
      · simp [pullReady, h]

/-- The remaining stream is empty or headed by a not-yet-started record. -/
theorem pullReady_rest (pos : Int) (pending : List CursorItem) :
    (pullReady pos pending).2.2.1 = [] ∨
      ∃ v rest, (pullReady pos pending).2.2.1 = .ok v :: rest ∧ pos < v.start := by
  induction pending with
  | nil => left; simp [pullReady]
  | cons it rest ih =>
    match it with
    | .error .StorageError => left; simp [pullReady]
    | .error .MalformedRecord => simpa [pullReady] using ih
    | .ok v =>
      by_cases h : v.start ≤ pos
      · simpa [pullReady, h] using ih
      · right
        exact ⟨v, rest, by simp [pullReady, h], by omega⟩

/-- The pull never increases the measure bookkeeping. -/
theorem pullReady_cost (pos : Int) (pending : List CursorItem) :
    pendingCost (pullReady pos pending).2.2.1 + (pullReady pos pending).1.length +
      (pullReady pos pending).2.1.length +
      (((pullReady pos pending).2.1).map (fun v => refSpan v.runs)).sum ≤
      pendingCost pending := by
  induction pending with
  | nil => simp [pullReady, pendingCost]
  | cons it rest ih =>
    match it with
    | .error .StorageError =>
      rw [pendingCost_error_cons]
      simp [pullReady, pendingCost]
    | .error .MalformedRecord =>
      rw [pendingCost_error_cons]
      simp only [pullReady, List.length_cons]
      omega
    | .ok v =>
      rw [pendingCost_ok_cons]
      by_cases h : v.start ≤ pos
      · simp only [pullReady, if_pos h, List.length_cons, List.map_cons, List.sum_cons]
        omega
      · have hpr : pullReady pos (.ok v :: rest) = ([], [], .ok v :: rest, false) := by
          rw [pullReady, if_neg h]
        rw [hpr]
        simp [pendingCost_ok_cons]

/-- If nothing was pulled, the stream is unchanged. -/
theorem pullReady_nothing (pos : Int) (pending : List CursorItem)
    (h1 : (pullReady pos pending).1 = []) (h2 : (pullReady pos pending).2.1 = []) :
    (pullReady pos pending).2.2.1 = pending := by
  match pending with
  | [] => simp [pullReady]
  | .error .StorageError :: rest => simp [pullReady] at h1
  | .error .MalformedRecord :: rest => simp [pullReady] at h1
  | .ok v :: rest =>
    by_cases h : v.start ≤ pos
    · rw [pullReady, if_pos h] at h2
      simp at h2
    · rw [pullReady, if_neg h]

/-- activeRem distributes over append. -/
theorem activeRem_append (pos : Int) (a b : List AlignmentRecordView) :
    activeRem pos (a ++ b) = activeRem pos a + activeRem pos b := by
  simp [activeRem]

/-- Filtering cannot increase activeRem. -/
theorem activeRem_filter_le (pos : Int) (p : AlignmentRecordView → Bool)
    (l : List AlignmentRecordView) :
    activeRem pos (l.filter p) ≤ activeRem pos l := by
  induction l with
  | nil => simp [activeRem]
  | cons a rest ih =>
    rw [List.filter_cons]
    by_cases h : p a
    · rw [if_pos h]
      simp only [activeRem, List.map_cons, List.sum_cons] at ih ⊢
      omega
    · rw [if_neg h]
      simp only [activeRem, List.map_cons, List.sum_cons] at ih ⊢
      omega

/-- A later position leaves at most as much remaining span. -/
theorem activeRem_mono (pos q : Int) (l : List AlignmentRecordView) (h : pos ≤ q) :
    activeRem q l ≤ activeRem pos l := by
  induction l with
  | nil => simp [activeRem]
  | cons a rest ih =>
    simp only [activeRem, List.map_cons, List.sum_cons] at ih ⊢
    have : (a.endPos - q).toNat ≤ (a.endPos - pos).toNat := by omega
    omega

/-- Advancing one position past a nonempty set of still-running records
strictly shrinks the remaining span. -/
theorem activeRem_succ_lt (pos : Int) (l : List AlignmentRecordView)
    (h : ∀ v ∈ l, pos < v.endPos) (hne : l ≠ []) :
    activeRem (pos + 1) l < activeRem pos l := by
  match l with
  | [] => exact absurd rfl hne
  | a :: rest =>
    have ha : pos < a.endPos := h a (by simp)
    have hrest : activeRem (pos + 1) rest ≤ activeRem pos rest :=
      activeRem_mono pos (pos + 1) rest (by omega)
    simp only [activeRem, List.map_cons, List.sum_cons] at hrest ⊢
    have : (a.endPos - (pos + 1)).toNat < (a.endPos - pos).toNat := by omega
    omega

/-- Records that have already started carry at most their whole span. -/
theorem activeRem_le_span (pos : Int) (l : List AlignmentRecordView)
    (h : ∀ v ∈ l, v.start ≤ pos) :
    activeRem pos l ≤ (l.map (fun v => refSpan v.runs)).sum := by
  induction l with
  | nil => simp [activeRem]
  | cons a rest ih =>
    have ha : a.start ≤ pos := h a (by simp)
    have hrest := ih (fun v hv => h v (by simp [hv]))
    have hspan : (a.endPos - pos).toNat ≤ refSpan a.runs := by
      unfold AlignmentRecordView.endPos
      omega
    simp only [activeRem, List.map_cons, List.sum_cons] at hrest ⊢
    omega

/-- The measure strictly decreases across one recursive step of the sweep,
whenever the step emits a column or pulled at least one item. -/
theorem sweep_rec_measure (pos actualPos : Int) (active : List AlignmentRecordView)
    (pending : List CursorItem)
    (hpos : pos ≤ actualPos)
    (hprog : ((evicted pos active ++ (pullReady actualPos pending).2.1).filter
          (fun v => decide (actualPos < v.endPos))) ≠ [] ∨
      1 ≤ (pullReady actualPos pending).1.length + (pullReady actualPos pending).2.1.length) :
    sweepMeasure (actualPos + 1)
        ((evicted pos active ++ (pullReady actualPos pending).2.1).filter
            (fun v => decide (actualPos < v.endPos)))
        (pullReady actualPos pending).2.2.1 <
      sweepMeasure pos active pending := by
  unfold evicted at hprog ⊢
  have hcost := pullReady_cost actualPos pending
  have hadmle := pullReady_admits_le actualPos pending
  set active0 := active.filter (fun v => decide (pos < v.endPos)) with hactive0
  set adm := (pullReady actualPos pending).2.1 with hadm
  set pend := (pullReady actualPos pending).2.2.1 with hpend
  set active1 := (active0 ++ adm).filter (fun v => decide (actualPos < v.endPos)) with hactive1
  have hadmspan : activeRem actualPos adm ≤ (adm.map (fun v => refSpan v.runs)).sum :=
    activeRem_le_span actualPos adm hadmle
  by_cases hne : active1 = []
  · rcases hprog with hp | hp
    · exact absurd hne hp
    · rw [hne]
      unfold sweepMeasure
      have h0 : activeRem (actualPos + 1) ([] : List AlignmentRecordView) = 0 := by
        simp [activeRem]
      rw [h0]
      omega
  · have hmem : ∀ v ∈ active1, actualPos < v.endPos := by
      intro v hv
      rw [hactive1] at hv
      have := List.mem_filter.mp hv
      exact of_decide_eq_true this.2
    have hstep : activeRem (actualPos + 1) active1 < activeRem actualPos active1 :=
      activeRem_succ_lt actualPos active1 hmem hne
    have hfil : activeRem actualPos active1 ≤ activeRem actualPos (active0 ++ adm) :=
      activeRem_filter_le _ _ _
    have happ : activeRem actualPos (active0 ++ adm) =
        activeRem actualPos active0 + activeRem actualPos adm :=
      activeRem_append _ _ _
    have hmono : activeRem actualPos active0 ≤ activeRem pos active0 :=
      activeRem_mono pos actualPos active0 hpos
    have hfil0 : activeRem pos active0 ≤ activeRem pos active :=
      activeRem_filter_le _ _ _
    unfold sweepMeasure
    omega

/-- One-step unfolding of the fuelled sweep in terms of its pieces. -/
theorem sweepGo_succ (tid : Int) (fuel : Nat) (pos : Int)
    (active : List AlignmentRecordView) (pending : List CursorItem)
    (aP : Int) (haP : aP = sweepPos pos active pending)
    (errs : List RecErr) (adm : List AlignmentRecordView)
    (pend : List CursorItem) (ab : Bool)
    (hpull : pullReady aP pending = (errs, adm, pend, ab))
    (active1 : List AlignmentRecordView)
    (hact1 : active1 = (evicted pos active ++ adm).filter
      (fun v => decide (aP < v.endPos))) :
    sweepGo tid (fuel + 1) pos active pending =
      if ab then errs.map .error
      else if active1.isEmpty then
        if pend.isEmpty then errs.map .error
        else errs.map .error ++ sweepGo tid fuel (aP + 1) active1 pend
      else errs.map .error ++ .ok (colOf tid aP active1) ::
        sweepGo tid fuel (aP + 1) active1 pend := by
  subst haP
  subst hact1
  rw [sweepGo]
  simp only [hpull]

/-- Pulling from an error-free stream takes exactly the records whose
start has been reached. -/
theorem pullReady_map_ok (pos : Int) (rs : List AlignmentRecordView) :
    pullReady pos (rs.map .ok) =
      ([], rs.takeWhile (fun r => decide (r.start ≤ pos)),
        (rs.dropWhile (fun r => decide (r.start ≤ pos))).map .ok, false) := by
  induction rs with
  | nil => simp [pullReady]
  | cons r rest ih =>
    by_cases h : r.start ≤ pos
    · rw [List.map_cons, pullReady, if_pos h, ih]
      simp [List.takeWhile_cons, List.dropWhile_cons, h]
    · rw [List.map_cons, pullReady, if_neg h]
      simp [List.takeWhile_cons, List.dropWhile_cons, h]

/-- First pending start of an error-free stream. -/
theorem firstStart_map_ok (rs : List AlignmentRecordView) :
    firstStart (rs.map .ok) = rs.head?.map (fun r => r.start) := by
  cases rs <;> simp [firstStart]

/-- After dropping the started records of a sorted list, every remaining
record starts strictly later. -/
theorem sorted_dropWhile_gt (c : Int) (rs : List AlignmentRecordView)
    (hs : rs.Pairwise (fun a b => a.start ≤ b.start)) :
    ∀ r ∈ rs.dropWhile (fun r => decide (r.start ≤ c)), c < r.start := by
  induction rs with
  | nil => simp
  | cons a rest ih =>
    rcases List.pairwise_cons.mp hs with ⟨ha, hrest⟩
    by_cases h : a.start ≤ c
    · rw [List.dropWhile_cons_of_pos (by simpa using h)]
      exact ih hrest
    · rw [List.dropWhile_cons_of_neg (by simpa using h)]
      intro r hr
      rcases List.mem_cons.mp hr with hr | hr
      · rw [hr]
        omega
      · have := ha r hr
        omega

/-- Taken records have started. -/
theorem mem_takeWhile_start_le (c : Int) (rs : List AlignmentRecordView) :
    ∀ r ∈ rs.takeWhile (fun r => decide (r.start ≤ c)), r.start ≤ c := by
  intro r hr
  have := List.mem_takeWhile_imp hr
  exact of_decide_eq_true this

/-- The records overlapping position `p`, drawn from the already-admitted
actives and the not-yet-admitted input records. -/
def entriesAt (p : Int) (active rs : List AlignmentRecordView) :
    List AlignmentRecordView :=
  active.filter (fun v => decide (p < v.endPos)) ++
    rs.filter (fun r => decide (r.start ≤ p) && decide (p < r.endPos))

/-- The column the sweep should emit at position `p`. -/
def colAt (tid p : Int) (active rs : List AlignmentRecordView) : Column :=
  colOf tid p (entriesAt p active rs)

/-- Transfer: one admission step leaves the intended column contents at any
later position unchanged. -/
theorem entriesAt_step (pos actualPos p : Int)
    (active rs : List AlignmentRecordView)
    (hpa : pos ≤ actualPos) (hap : actualPos ≤ p) :
    entriesAt p active rs =
      entriesAt p
        ((evicted pos active ++ rs.takeWhile (fun r => decide (r.start ≤ actualPos))).filter
          (fun v => decide (actualPos < v.endPos)))
        (rs.dropWhile (fun r => decide (r.start ≤ actualPos))) := by
  have hA : (((evicted pos active ++
        rs.takeWhile (fun r => decide (r.start ≤ actualPos))).filter
          (fun v => decide (actualPos < v.endPos))).filter
            (fun v => decide (p < v.endPos))) =
      active.filter (fun v => decide (p < v.endPos)) ++
        (rs.takeWhile (fun r => decide (r.start ≤ actualPos))).filter
          (fun r => decide (r.start ≤ p) && decide (p < r.endPos)) := by
    rw [List.filter_filter, List.filter_append]
    unfold evicted
    rw [List.filter_filter]
    congr 1
    · apply List.filter_congr
      intro a _
      by_cases hp : p < a.endPos
      · simp [hp, show pos < a.endPos by omega, show actualPos < a.endPos by omega]
      · simp [hp]
    · apply List.filter_congr
      intro a ha
      have hst := mem_takeWhile_start_le actualPos rs a ha
      by_cases hp : p < a.endPos
      · simp [hp, show a.start ≤ p by omega, show actualPos < a.endPos by omega]
      · simp [hp]
  have hsplit : rs.filter (fun r => decide (r.start ≤ p) && decide (p < r.endPos)) =
      (rs.takeWhile (fun r => decide (r.start ≤ actualPos))).filter
        (fun r => decide (r.start ≤ p) && decide (p < r.endPos)) ++
      (rs.dropWhile (fun r => decide (r.start ≤ actualPos))).filter
        (fun r => decide (r.start ≤ p) && decide (p < r.endPos)) := by
    rw [← List.filter_append, List.takeWhile_append_dropWhile]
  unfold entriesAt
  rw [hA, hsplit, List.append_assoc]

/-- Emission: the column contents built from the freshly filtered actives
are the intended column contents at the step position. -/
theorem entriesAt_emit (pos actualPos : Int) (active rs : List AlignmentRecordView)
    (hpa : pos ≤ actualPos)
    (hsorted : rs.Pairwise (fun a b => a.start ≤ b.start)) :
    entriesAt actualPos active rs =
      (evicted pos active ++ rs.takeWhile (fun r => decide (r.start ≤ actualPos))).filter
        (fun v => decide (actualPos < v.endPos)) := by
  have hA : ((evicted pos active ++
        rs.takeWhile (fun r => decide (r.start ≤ actualPos))).filter
          (fun v => decide (actualPos < v.endPos))) =
      active.filter (fun v => decide (actualPos < v.endPos)) ++
        (rs.takeWhile (fun r => decide (r.start ≤ actualPos))).filter
          (fun v => decide (actualPos < v.endPos)) := by
    rw [List.filter_append]
    unfold evicted
    rw [List.filter_filter]
    congr 1
    apply List.filter_congr
    intro a _
    by_cases hp : actualPos < a.endPos
    · simp [hp, show pos < a.endPos by omega]
    · simp [hp]
  have hsplit : rs.filter
      (fun r => decide (r.start ≤ actualPos) && decide (actualPos < r.endPos)) =
      (rs.takeWhile (fun r => decide (r.start ≤ actualPos))).filter
        (fun r => decide (r.start ≤ actualPos) && decide (actualPos < r.endPos)) ++
      (rs.dropWhile (fun r => decide (r.start ≤ actualPos))).filter
        (fun r => decide (r.start ≤ actualPos) && decide (actualPos < r.endPos)) := by
    rw [← List.filter_append, List.takeWhile_append_dropWhile]
  have hdrop : (rs.dropWhile (fun r => decide (r.start ≤ actualPos))).filter
      (fun r => decide (r.start ≤ actualPos) && decide (actualPos < r.endPos)) = [] := by
    rw [List.filter_eq_nil_iff]
    intro a ha hk
    rw [Bool.and_eq_true] at hk
    have h1 := of_decide_eq_true hk.1
    have := sorted_dropWhile_gt actualPos rs hsorted a ha
    omega
  have htake : (rs.takeWhile (fun r => decide (r.start ≤ actualPos))).filter
      (fun r => decide (r.start ≤ actualPos) && decide (actualPos < r.endPos)) =
      (rs.takeWhile (fun r => decide (r.start ≤ actualPos))).filter
        (fun v => decide (actualPos < v.endPos)) := by
    apply List.filter_congr
    intro a ha
    have := mem_takeWhile_start_le actualPos rs a ha
    simp [show a.start ≤ actualPos from this]
  unfold entriesAt
  rw [hA, hsplit, hdrop, htake, List.append_nil]

/-- Position of an emitted column, if the item is one. -/
def okPos : Except RecErr Column → Option Int
  | .ok c => some c.position
  | .error _ => none

/-- Error-free form of the measure decrease. -/
theorem sweep_rec_measure_ok (pos aP : Int)
    (active rs : List AlignmentRecordView) (hpa : pos ≤ aP)
    (hprog : ((evicted pos active ++
        rs.takeWhile (fun r => decide (r.start ≤ aP))).filter
          (fun v => decide (aP < v.endPos))) ≠ [] ∨
      1 ≤ (rs.takeWhile (fun r => decide (r.start ≤ aP))).length) :
    sweepMeasure (aP + 1)
        ((evicted pos active ++
          rs.takeWhile (fun r => decide (r.start ≤ aP))).filter
            (fun v => decide (aP < v.endPos)))
        ((rs.dropWhile (fun r => decide (r.start ≤ aP))).map .ok) <
      sweepMeasure pos active (rs.map .ok) := by
  have h := sweep_rec_measure pos aP active (rs.map .ok) hpa (by
    rw [pullReady_map_ok]
    simpa using hprog)
  rw [pullReady_map_ok] at h
  simpa using h

/-- No position strictly below the step position is covered. -/
theorem entriesAt_below_empty (pos aP p : Int)
    (active rs : List AlignmentRecordView)
    (haP : aP = sweepPos pos active (rs.map .ok))
    (hsorted : rs.Pairwise (fun a b => a.start ≤ b.start))
    (hpend : ∀ r ∈ rs, pos ≤ r.start)
    (hp1 : pos ≤ p) (hp2 : p < aP) :
    entriesAt p active rs = [] := by
  have hev : evicted pos active = [] := by
    by_contra hev
    have haPpos : aP = pos := by
      rw [haP]
      unfold sweepPos
      rw [if_neg (by simpa [List.isEmpty_iff] using hev)]
    omega
  unfold entriesAt
  rw [List.append_eq_nil]
  constructor
  · rw [List.filter_eq_nil_iff]
    intro v hv hkeep
    have hplt := of_decide_eq_true hkeep
    have hvev : v ∈ evicted pos active := by
      unfold evicted
      rw [List.mem_filter]
      exact ⟨hv, decide_eq_true (by omega)⟩
    rw [hev] at hvev
    simp at hvev
  · cases hrs : rs with
    | nil => simp
    | cons r0 rest =>
      have haPr0 : aP = r0.start := by
        rw [haP]
        unfold sweepPos
        rw [if_pos (by simp [List.isEmpty_iff, hev])]
        rw [firstStart_map_ok, hrs]
        simp
        have := hpend r0 (by rw [hrs]; simp)
        omega
      rw [List.filter_eq_nil_iff]
      intro r hr hkeep
      rw [Bool.and_eq_true] at hkeep
      have hrle := of_decide_eq_true hkeep.1
      have hr0le : r0.start ≤ r.start := by
        rw [hrs] at hsorted
        rcases List.pairwise_cons.mp hsorted with ⟨hhead, _⟩
        rcases List.mem_cons.mp hr with hre | hre
        · rw [hre]
        · exact hhead r hre
      omega

/-- Master lemma for the error-free sweep: every output item is the
intended column at some position at or past the start, every covered
position receives its intended column, positions are strictly increasing,
and all positions are at or past the start. -/
theorem sweep_master (tid : Int) (fuel : Nat) :
    ∀ (pos : Int) (active rs : List AlignmentRecordView),
      sweepMeasure pos active (rs.map .ok) < fuel →
      rs.Pairwise (fun a b => a.start ≤ b.start) →
      (∀ r ∈ rs, pos ≤ r.start) →
      (∀ v ∈ active, v.start ≤ pos) →
      (∀ x ∈ sweepGo tid fuel pos active (rs.map .ok),
          ∃ p, pos ≤ p ∧ x = .ok (colAt tid p active rs)) ∧
        (∀ p, pos ≤ p → entriesAt p active rs ≠ [] →
          .ok (colAt tid p active rs) ∈ sweepGo tid fuel pos active (rs.map .ok)) ∧
        ((sweepGo tid fuel pos active (rs.map .ok)).filterMap okPos).Pairwise (· < ·) ∧
        (∀ q ∈ (sweepGo tid fuel pos active (rs.map .ok)).filterMap okPos, pos ≤ q) := by
  induction fuel with
  | zero =>
    intro pos active rs hfuel _ _ _
    omega
  | succ n ih =>
    intro pos active rs hfuel hsorted hpend hactive
    set aP := sweepPos pos active (rs.map .ok) with haP
    have hpa : pos ≤ aP := by
      rw [haP]
      unfold sweepPos
      by_cases h0 : (evicted pos active).isEmpty
      · rw [if_pos h0]
        cases hfs : firstStart (rs.map .ok) with
        | none => exact le_refl pos
        | some s0 => exact le_max_left pos s0
      · rw [if_neg h0]
    set T := rs.takeWhile (fun r => decide (r.start ≤ aP)) with hT
    set D := rs.dropWhile (fun r => decide (r.start ≤ aP)) with hD
    set A1 := (evicted pos active ++ T).filter (fun v => decide (aP < v.endPos)) with hA1
    have hstep := sweepGo_succ tid n pos active (rs.map .ok) aP haP
      [] T (D.map .ok) false
      (by rw [hT, hD]; exact pullReady_map_ok aP rs) A1 hA1
    simp only [List.map_nil, List.nil_append, if_false, Bool.false_eq_true] at hstep
    have hsortedD : D.Pairwise (fun a b => a.start ≤ b.start) :=
      hsorted.sublist (hD ▸ List.dropWhile_sublist _)
    have hpendD : ∀ r ∈ D, aP + 1 ≤ r.start := by
      intro r hr
      have := sorted_dropWhile_gt aP rs hsorted r (hD ▸ hr)
      omega
    have hactiveA1 : ∀ v ∈ A1, v.start ≤ aP + 1 := by
      intro v hv
      rw [hA1, List.mem_filter] at hv
      rcases List.mem_append.mp hv.1 with hva | hvt
      · have : v ∈ active := List.mem_of_mem_filter hva
        have := hactive v this
        omega
      · have := mem_takeWhile_start_le aP rs v (hT ▸ hvt)
        omega
    have htrans : ∀ p, aP ≤ p → colAt tid p active rs = colAt tid p A1 D := by
      intro p hp
      unfold colAt
      rw [entriesAt_step pos aP p active rs hpa hp]
    have hemit : entriesAt aP active rs = A1 :=
      entriesAt_emit pos aP active rs hpa hsorted
    by_cases hA1e : A1.isEmpty
    · have hA1nil : A1 = [] := List.isEmpty_iff.mp hA1e
      rw [if_pos hA1e] at hstep
      by_cases hDe : (D.map (.ok : AlignmentRecordView → CursorItem)).isEmpty
      · rw [if_pos hDe] at hstep
        have hDnil : D = [] := by
          have := List.isEmpty_iff.mp hDe
          simpa using this
        refine ⟨?_, ?_, ?_, ?_⟩
        · intro x hx
          rw [hstep] at hx
          simp at hx
        · intro p hp hne
          exfalso
          rcases lt_trichotomy p aP with hcase | hcase | hcase
          · exact hne (entriesAt_below_empty pos aP p active rs haP hsorted hpend hp hcase)
          · rw [hcase, hemit, hA1nil] at hne
            exact hne rfl
          · apply hne
            rw [entriesAt_step pos aP p active rs hpa (by omega), ← hT, ← hD, ← hA1,
              hA1nil, hDnil]
            unfold entriesAt
            simp
        · rw [hstep]
          simp
        · rw [hstep]
          simp
      · rw [if_neg hDe] at hstep
        have hDne : D ≠ [] := by
          intro hc
          rw [hc] at hDe
          simp at hDe
        have hTne : 1 ≤ T.length := by
          have hevnil : evicted pos active = [] := by
            by_contra hev
            have haPpos : aP = pos := by
              rw [haP]
              unfold sweepPos
              rw [if_neg (by simpa [List.isEmpty_iff] using hev)]
            rcases List.exists_mem_of_ne_nil _ hev with ⟨v, hv⟩
            have hvA1 : v ∈ A1 := by
              rw [hA1, List.mem_filter]
              refine ⟨List.mem_append_left _ hv, ?_⟩
              unfold evicted at hv
              rw [List.mem_filter] at hv
              have := of_decide_eq_true hv.2
              exact decide_eq_true (by omega)
            rw [hA1nil] at hvA1
            simp at hvA1
          cases hrs : rs with
          | nil =>
            exfalso
            apply hDne
            rw [hD, hrs]
            simp
          | cons r0 rest =>
            have haPr0 : aP = r0.start := by
              rw [haP]
              unfold sweepPos
              rw [if_pos (by simp [List.isEmpty_iff, hevnil])]
              rw [firstStart_map_ok, hrs]
              simp
              have := hpend r0 (by rw [hrs]; simp)
              omega
            have : r0 ∈ T := by
              rw [hT, hrs]
              simp [List.takeWhile_cons, haPr0]
            have := List.length_pos_of_mem this
            omega
        have hrec : sweepMeasure (aP + 1) A1 (D.map .ok) <
            sweepMeasure pos active (rs.map .ok) := by
          rw [hA1, hT, hD]
          exact sweep_rec_measure_ok pos aP active rs hpa (Or.inr (hT ▸ hTne))
        have hihyp := ih (aP + 1) A1 D (by omega) hsortedD hpendD hactiveA1
        refine ⟨?_, ?_, ?_, ?_⟩
        · intro x hx
          rw [hstep] at hx
          rcases hihyp.1 x hx with ⟨p, hp, hxeq⟩
          exact ⟨p, by omega, by rw [hxeq, ← htrans p (by omega)]⟩
        · intro p hp hne
          rcases lt_trichotomy p aP with hcase | hcase | hcase
          · exact absurd (entriesAt_below_empty pos aP p active rs haP hsorted hpend hp hcase) hne
          · exfalso
            rw [hcase, hemit, hA1nil] at hne
            exact hne rfl
          · rw [hstep, htrans p (by omega)]
            apply hihyp.2.1 p (by omega)
            have := htrans p (by omega)
            unfold colAt at this
            rw [entriesAt_step pos aP p active rs hpa (by omega), ← hT, ← hD, ← hA1] at hne
            exact hne
        · rw [hstep]
          exact hihyp.2.2.1
        · rw [hstep]
          intro q hq
          have := hihyp.2.2.2 q hq
          omega
    · rw [if_neg hA1e] at hstep
      have hA1ne : A1 ≠ [] := by
        intro hc
        rw [hc] at hA1e
        simp at hA1e
      have hrec : sweepMeasure (aP + 1) A1 (D.map .ok) <
          sweepMeasure pos active (rs.map .ok) := by
        rw [hA1, hT, hD]
        refine sweep_rec_measure_ok pos aP active rs hpa (Or.inl ?_)
        rw [← hT, ← hA1]
        exact hA1ne
      have hihyp := ih (aP + 1) A1 D (by omega) hsortedD hpendD hactiveA1
      have hcol : colAt tid aP active rs = colOf tid aP A1 := by
        unfold colAt
        rw [hemit]
      refine ⟨?_, ?_, ?_, ?_⟩
      · intro x hx
        rw [hstep] at hx
        rcases List.mem_cons.mp hx with hx | hx
        · exact ⟨aP, hpa, by rw [hx, hcol]⟩
        · rcases hihyp.1 x hx with ⟨p, hp, hxeq⟩
          exact ⟨p, by omega, by rw [hxeq, ← htrans p (by omega)]⟩
      · intro p hp hne
        rcases lt_trichotomy p aP with hcase | hcase | hcase
        · exact absurd (entriesAt_below_empty pos aP p active rs haP hsorted hpend hp hcase) hne
        · rw [hstep, hcase, hcol]
          exact List.mem_cons_self _ _
        · rw [hstep, htrans p (by omega)]
          refine List.mem_cons_of_mem _ (hihyp.2.1 p (by omega) ?_)
          rw [entriesAt_step pos aP p active rs hpa (by omega), ← hT, ← hD, ← hA1] at hne
          exact hne
      · rw [hstep]
        have hfm : (Except.ok (colOf tid aP A1) ::
            sweepGo tid n (aP + 1) A1 (D.map .ok)).filterMap okPos =
            aP :: (sweepGo tid n (aP + 1) A1 (D.map .ok)).filterMap okPos := by
          rw [List.filterMap_cons]
          simp [okPos, colOf]
        rw [hfm]
        refine List.pairwise_cons.mpr ⟨?_, hihyp.2.2.1⟩
        intro q hq
        have := hihyp.2.2.2 q hq
        omega
      · rw [hstep]
        have hfm : (Except.ok (colOf tid aP A1) ::
            sweepGo tid n (aP + 1) A1 (D.map .ok)).filterMap okPos =
            aP :: (sweepGo tid n (aP + 1) A1 (D.map .ok)).filterMap okPos := by
          rw [List.filterMap_cons]
          simp [okPos, colOf]
        rw [hfm]
        intro q hq
        rcases List.mem_cons.mp hq with hq | hq
        · omega
        · have := hihyp.2.2.2 q hq
          omega

/-- Helper: a walk inside the reference span lands on a base, a deletion or
a reference skip, and a base's query offset is bounded by the consumed
query length. -/
theorem stateAtOffset_cases (runs : List OperationRun) (k qAcc : Nat)
    (hk : k < refSpan runs) :
    (∃ q, stateAtOffset runs k qAcc = .Base q ∧ q < qAcc + querySpan runs) ∨
      stateAtOffset runs k qAcc = .Deletion ∨
      stateAtOffset runs k qAcc = .RefSkip := by
  induction runs generalizing k qAcc with
  | nil => simp [refSpan] at hk
  | cons r rest ih =>
    have hq : querySpan (r :: rest) =
        (if r.kind.consumesQuery then r.length else 0) + querySpan rest := rfl
    by_cases hc : r.kind.consumesRef
    · have hr : refSpan (r :: rest) = r.length + refSpan rest := by
        rw [refSpan, if_pos hc]
      rw [hr] at hk
      by_cases hlt : k < r.length
      · rw [stateAtOffset, if_pos hc, if_pos hlt]
        cases hkind : r.kind with
        | Match =>
          left
          refine ⟨qAcc + k, rfl, ?_⟩
          rw [hq, hkind]
          simp [OpKind.consumesQuery]
          omega
        | Deletion => right; left; rfl
        | RefSkip => right; right; rfl
        | Insertion => rw [hkind] at hc; simp [OpKind.consumesRef] at hc
        | SoftClip => rw [hkind] at hc; simp [OpKind.consumesRef] at hc
        | HardClip => rw [hkind] at hc; simp [OpKind.consumesRef] at hc
        | Pad => rw [hkind] at hc; simp [OpKind.consumesRef] at hc
      · rw [stateAtOffset, if_pos hc, if_neg hlt]
        have := ih (k - r.length) (qAcc + (if r.kind.consumesQuery then r.length else 0))
          (by omega)
        rcases this with ⟨q, hqe, hqb⟩ | h | h
        · left
          refine ⟨q, hqe, ?_⟩
          rw [hq]
          omega
        · right; left; exact h
        · right; right; exact h
    · have hr : refSpan (r :: rest) = refSpan rest := by
        rw [refSpan, if_neg hc]
        omega
      rw [hr] at hk
      rw [stateAtOffset, if_neg hc]
      have := ih k (qAcc + (if r.kind.consumesQuery then r.length else 0)) hk
      rcases this with ⟨q, hqe, hqb⟩ | h | h
      · left
        refine ⟨q, hqe, ?_⟩
        rw [hq]
        omega
      · right; left; exact h
      · right; right; exact h

/-- Helper: complementary filters split the length of a list. -/
theorem length_filter_not (l : List PileupEntry) (p : PileupEntry → Bool) :
    (l.filter p).length + (l.filter (fun a => ! p a)).length = l.length := by
  induction l with
  | nil => simp
  | cons a rest ih =>
    by_cases h : p a
    · simp [List.filter_cons, h]
      omega
    · simp [List.filter_cons, h]
      omega

/-- C6 (amended): in a sweep over sorted records, each emitted column's
depth equals the number of input alignments with `start ≤ p < end` whose
Cigar Walker state at `p` is neither Deletion nor RefSkip; every position
covered by some alignment gets a column, and column positions are strictly
increasing (no duplicates). -/
theorem pileup_depth_counts (tid s0 : Int) (rs : List AlignmentRecordView)
    (hsorted : rs.Pairwise (fun a b => a.start ≤ b.start))
    (hpend : ∀ r ∈ rs, s0 ≤ r.start) :
    (∀ c, .ok c ∈ sweep tid s0 [] (rs.map .ok) →
      c.depth = ((rs.filter (fun r => decide (r.start ≤ c.position) &&
          decide (c.position < r.endPos))).filter
        (fun r => !(state_at r c.position == WalkState.Deletion) &&
          !(state_at r c.position == WalkState.RefSkip))).length) ∧
      (∀ p, s0 ≤ p → (∃ r ∈ rs, r.start ≤ p ∧ p < r.endPos) →
        ∃ c, .ok c ∈ sweep tid s0 [] (rs.map .ok) ∧ c.position = p) ∧
      ((sweep tid s0 [] (rs.map .ok)).filterMap okPos).Pairwise (· < ·) := by
  have hmaster := sweep_master tid (sweepMeasure s0 [] (rs.map .ok) + 1) s0 [] rs
    (by omega) hsorted hpend (by simp)
  unfold sweep
  refine ⟨?_, ?_, ?_⟩
  · intro c hc
    rcases hmaster.1 (.ok c) hc with ⟨p, hp, heq⟩
    have hceq : c = colAt tid p [] rs := Except.ok.inj heq
    rw [hceq]
    have hcp : (colAt tid p [] rs).position = p := rfl
    rw [hcp]
    unfold colAt colOf entriesAt Column.depth
    simp only [List.filter_nil, List.nil_append]
    rw [List.filter_map, List.length_map]
    apply congrArg List.length
    apply List.filter_congr
    intro r _
    simp [Function.comp, PileupEntry.is_del, PileupEntry.is_refskip]
  · intro p hp hex
    rcases hex with ⟨r, hr, h1, h2⟩
    have hne : entriesAt p [] rs ≠ [] := by
      unfold entriesAt
      simp only [List.filter_nil, List.nil_append]
      intro hnil
      rw [List.filter_eq_nil_iff] at hnil
      exact hnil r hr (by
        rw [Bool.and_eq_true]
        exact ⟨decide_eq_true h1, decide_eq_true h2⟩)
    exact ⟨colAt tid p [] rs, hmaster.2.1 p hp hne, rfl⟩
  · exact hmaster.2.2.1

/-- Witness for the amended C6 on a one-record sweep. -/
theorem pileup_depth_counts_witness :
    ([(⟨some 0, 2, [⟨.Match, 2⟩], 2⟩ : AlignmentRecordView)].Pairwise
        (fun a b => a.start ≤ b.start)) ∧
      (∀ r ∈ [(⟨some 0, 2, [⟨.Match, 2⟩], 2⟩ : AlignmentRecordView)], (0 : Int) ≤ r.start) ∧
      ((∀ c, .ok c ∈ sweep 0 0 [] ([(⟨some 0, 2, [⟨.Match, 2⟩], 2⟩ : AlignmentRecordView)].map .ok) →
        c.depth = (([(⟨some 0, 2, [⟨.Match, 2⟩], 2⟩ : AlignmentRecordView)].filter
            (fun r => decide (r.start ≤ c.position) && decide (c.position < r.endPos))).filter
          (fun r => !(state_at r c.position == WalkState.Deletion) &&
            !(state_at r c.position == WalkState.RefSkip))).length) ∧
        (∀ p, (0 : Int) ≤ p →
          (∃ r ∈ [(⟨some 0, 2, [⟨.Match, 2⟩], 2⟩ : AlignmentRecordView)], r.start ≤ p ∧ p < r.endPos) →
          ∃ c, .ok c ∈ sweep 0 0 []
            ([(⟨some 0, 2, [⟨.Match, 2⟩], 2⟩ : AlignmentRecordView)].map .ok) ∧ c.position = p) ∧
        ((sweep 0 0 [] ([(⟨some 0, 2, [⟨.Match, 2⟩], 2⟩ : AlignmentRecordView)].map .ok)).filterMap
          okPos).Pairwise (· < ·)) :=
  ⟨by decide, by decide,
    pileup_depth_counts 0 0 [⟨some 0, 2, [⟨.Match, 2⟩], 2⟩] (by decide) (by decide)⟩

/-- Counterexample to C6 as stated: for the record with runs Match 3,
Deletion 2, Match 3 starting at 0, the pileup column at position 3 exists
with numeric depth 0, although exactly one input alignment satisfies
`start ≤ 3 < end` — depth is not the raw overlap count. -/
theorem pileup_depth_counterexample :
    (Except.ok (⟨0, 3,
        [⟨⟨some 0, 0, [⟨.Match, 3⟩, ⟨.Deletion, 2⟩, ⟨.Match, 3⟩], 6⟩, .Deletion⟩]⟩ : Column)) ∈
      sweep 0 0 [] [.ok ⟨some 0, 0, [⟨.Match, 3⟩, ⟨.Deletion, 2⟩, ⟨.Match, 3⟩], 6⟩] ∧
      Column.depth (⟨0, 3,
        [⟨⟨some 0, 0, [⟨.Match, 3⟩, ⟨.Deletion, 2⟩, ⟨.Match, 3⟩], 6⟩, .Deletion⟩]⟩ : Column) = 0 ∧
      ([(⟨some 0, 0, [⟨.Match, 3⟩, ⟨.Deletion, 2⟩, ⟨.Match, 3⟩], 6⟩ : AlignmentRecordView)].filter
        (fun r => decide (r.start ≤ (3 : Int)) && decide ((3 : Int) < r.endPos))).length = 1 := by
  refine ⟨?_, by decide, by decide⟩
  decide

/-- C7: every alignment overlapping an emitted column's position whose
Cigar Walker state there is Deletion or RefSkip still appears in the
column's entry list, and the numeric depth counts exactly the entries that
are in neither of those states. -/
theorem pileup_del_refskip_listed (tid s0 : Int) (rs : List AlignmentRecordView)
    (hsorted : rs.Pairwise (fun a b => a.start ≤ b.start))
    (hpend : ∀ r ∈ rs, s0 ≤ r.start) :
    ∀ c, .ok c ∈ sweep tid s0 [] (rs.map .ok) →
      (∀ r ∈ rs, r.start ≤ c.position → c.position < r.endPos →
        (state_at r c.position = .Deletion ∨ state_at r c.position = .RefSkip) →
        (⟨r, state_at r c.position⟩ : PileupEntry) ∈ c.entries) ∧
      c.depth + (c.entries.filter (fun a => a.is_del || a.is_refskip)).length =
        c.entries.length := by
  have hmaster := sweep_master tid (sweepMeasure s0 [] (rs.map .ok) + 1) s0 [] rs
    (by omega) hsorted hpend (by simp)
  unfold sweep
  intro c hc
  rcases hmaster.1 (.ok c) hc with ⟨p, hp, heq⟩
  have hceq : c = colAt tid p [] rs := Except.ok.inj heq
  subst hceq
  have hcp : (colAt tid p [] rs).position = p := rfl
  constructor
  · intro r hr h1 h2 hst
    rw [hcp] at h1 h2 hst ⊢
    show (⟨r, state_at r p⟩ : PileupEntry) ∈ (colAt tid p [] rs).entries
    unfold colAt colOf entriesAt
    simp only [List.filter_nil, List.nil_append]
    apply List.mem_map.mpr
    refine ⟨r, List.mem_filter.mpr ⟨hr, ?_⟩, rfl⟩
    rw [Bool.and_eq_true]
    exact ⟨decide_eq_true h1, decide_eq_true h2⟩
  · unfold Column.depth
    have hlen := length_filter_not ((colAt tid p [] rs).entries)
      (fun a => ! a.is_del && ! a.is_refskip)
    have hcongr : (colAt tid p [] rs).entries.filter
        (fun a => !(! a.is_del && ! a.is_refskip)) =
        (colAt tid p [] rs).entries.filter (fun a => a.is_del || a.is_refskip) := by
      apply List.filter_congr
      intro a _
      cases hda : a.is_del <;> cases hra : a.is_refskip <;> simp [hda, hra]
    rw [← hcongr]
    exact hlen

/-- Witness for C7 on the spec's deletion example: runs Match 3,
Deletion 2, Match 3 starting at 0. -/
theorem pileup_del_refskip_listed_witness :
    ([(⟨some 0, 0, [⟨.Match, 3⟩, ⟨.Deletion, 2⟩, ⟨.Match, 3⟩], 6⟩ : AlignmentRecordView)].Pairwise
        (fun a b => a.start ≤ b.start)) ∧
      (∀ r ∈ [(⟨some 0, 0, [⟨.Match, 3⟩, ⟨.Deletion, 2⟩, ⟨.Match, 3⟩], 6⟩ : AlignmentRecordView)],
        (0 : Int) ≤ r.start) ∧
      (∀ c, .ok c ∈ sweep 0 0 []
          ([(⟨some 0, 0, [⟨.Match, 3⟩, ⟨.Deletion, 2⟩, ⟨.Match, 3⟩], 6⟩ : AlignmentRecordView)].map .ok) →
        (∀ r ∈ [(⟨some 0, 0, [⟨.Match, 3⟩, ⟨.Deletion, 2⟩, ⟨.Match, 3⟩], 6⟩ : AlignmentRecordView)],
          r.start ≤ c.position → c.position < r.endPos →
          (state_at r c.position = .Deletion ∨ state_at r c.position = .RefSkip) →
          (⟨r, state_at r c.position⟩ : PileupEntry) ∈ c.entries) ∧
        c.depth + (c.entries.filter (fun a => a.is_del || a.is_refskip)).length =
          c.entries.length) :=
  ⟨by decide, by decide,
    pileup_del_refskip_listed 0 0 [⟨some 0, 0, [⟨.Match, 3⟩, ⟨.Deletion, 2⟩, ⟨.Match, 3⟩], 6⟩]
      (by decide) (by decide)⟩

/-- C10: in any emitted column over well-formed records (query_length
matches the query-consuming runs), an entry that is neither in a deletion
nor a reference skip has a query position, and it indexes into the query
sequence. -/
theorem pileup_qpos_safe (tid s0 : Int) (rs : List AlignmentRecordView)
    (hsorted : rs.Pairwise (fun a b => a.start ≤ b.start))
    (hpend : ∀ r ∈ rs, s0 ≤ r.start)
    (hwf : ∀ r ∈ rs, r.query_length = querySpan r.runs) :
    ∀ c, .ok c ∈ sweep tid s0 [] (rs.map .ok) → ∀ a ∈ c.entries,
      a.is_del = false → a.is_refskip = false →
      ∃ q, a.qpos = some q ∧ q < a.record.query_length := by
  have hmaster := sweep_master tid (sweepMeasure s0 [] (rs.map .ok) + 1) s0 [] rs
    (by omega) hsorted hpend (by simp)
  unfold sweep
  intro c hc a ha hdel hskip
  rcases hmaster.1 (.ok c) hc with ⟨p, hp, heq⟩
  have hceq : c = colAt tid p [] rs := Except.ok.inj heq
  subst hceq
  unfold colAt colOf entriesAt at ha
  simp only [List.filter_nil, List.nil_append] at ha
  rcases List.mem_map.mp ha with ⟨r, hrf, haeq⟩
  rcases List.mem_filter.mp hrf with ⟨hrm, hrp⟩
  rw [Bool.and_eq_true] at hrp
  have h1 := of_decide_eq_true hrp.1
  have h2 := of_decide_eq_true hrp.2
  have hrange : ¬(p < r.start ∨ r.endPos ≤ p) := by
    push_neg
    exact ⟨h1, h2⟩
  have hs : state_at r p = stateAtOffset r.runs (p - r.start).toNat 0 := by
    rw [state_at, if_neg hrange]
  have hk : (p - r.start).toNat < refSpan r.runs := by
    unfold AlignmentRecordView.endPos at h2
    omega
  subst haeq
  rcases stateAtOffset_cases r.runs ((p - r.start).toNat) 0 hk with ⟨q, hqe, hqb⟩ | hd | hsk
  · refine ⟨q, ?_, ?_⟩
    · unfold PileupEntry.qpos
      rw [hs, hqe]
    · have : (⟨r, state_at r p⟩ : PileupEntry).record = r := rfl
      rw [this, hwf r hrm]
      omega
  · exfalso
    unfold PileupEntry.is_del at hdel
    rw [hs, hd] at hdel
    simp at hdel
  · exfalso
    unfold PileupEntry.is_refskip at hskip
    rw [hs, hsk] at hskip
    simp at hskip

/-- Witness for C10 on a concrete well-formed record. -/
theorem pileup_qpos_safe_witness :
    ([(⟨some 0, 1, [⟨.Match, 2⟩], 2⟩ : AlignmentRecordView)].Pairwise
        (fun a b => a.start ≤ b.start)) ∧
      (∀ r ∈ [(⟨some 0, 1, [⟨.Match, 2⟩], 2⟩ : AlignmentRecordView)], (0 : Int) ≤ r.start) ∧
      (∀ r ∈ [(⟨some 0, 1, [⟨.Match, 2⟩], 2⟩ : AlignmentRecordView)],
        r.query_length = querySpan r.runs) ∧
      (∀ c, .ok c ∈ sweep 0 0 []
          ([(⟨some 0, 1, [⟨.Match, 2⟩], 2⟩ : AlignmentRecordView)].map .ok) →
        ∀ a ∈ c.entries, a.is_del = false → a.is_refskip = false →
        ∃ q, a.qpos = some q ∧ q < a.record.query_length) :=
  ⟨by decide, by decide, by decide,
    pileup_qpos_safe 0 0 [⟨some 0, 1, [⟨.Match, 2⟩], 2⟩] (by decide) (by decide) (by decide)⟩

/-- The emitted column of an item, if it is one. -/
def okCol : Except RecErr Column → Option Column
  | .ok c => some c
  | .error _ => none

/-- The step position never moves backwards. -/
theorem sweepPos_ge (pos : Int) (active : List AlignmentRecordView)
    (pending : List CursorItem) : pos ≤ sweepPos pos active pending := by
  unfold sweepPos
  by_cases h0 : (evicted pos active).isEmpty
  · rw [if_pos h0]
    cases firstStart pending with
    | none => exact le_refl pos
    | some s0 => exact le_max_left pos s0
  · rw [if_neg h0]

/-- When the admitted set comes up empty but items remain pending, the pull
consumed at least one item (the jump guarantees the head is admissible). -/
theorem sweep_progress (pos : Int) (active : List AlignmentRecordView)
    (pending : List CursorItem) (aP : Int)
    (haP : aP = sweepPos pos active pending)
    (hA1 : ((evicted pos active ++ (pullReady aP pending).2.1).filter
      (fun v => decide (aP < v.endPos))) = [])
    (hpend : (pullReady aP pending).2.2.1 ≠ []) :
    1 ≤ (pullReady aP pending).1.length + (pullReady aP pending).2.1.length := by
  have hev : evicted pos active = [] := by
    by_contra hev
    rcases List.exists_mem_of_ne_nil _ hev with ⟨v, hv⟩
    have hvA1 : v ∈ (evicted pos active ++ (pullReady aP pending).2.1).filter
        (fun v => decide (aP < v.endPos)) := by
      rw [List.mem_filter]
      refine ⟨List.mem_append_left _ hv, ?_⟩
      have haPpos : aP = pos := by
        rw [haP]
        unfold sweepPos
        rw [if_neg (by simpa [List.isEmpty_iff] using hev)]
      unfold evicted at hv
      rw [List.mem_filter] at hv
      have := of_decide_eq_true hv.2
      exact decide_eq_true (by omega)
    rw [hA1] at hvA1
    simp at hvA1
  by_contra h
  push_neg at h
  have herrs : (pullReady aP pending).1 = [] := List.length_eq_zero.mp (by omega)
  have hadm : (pullReady aP pending).2.1 = [] := List.length_eq_zero.mp (by omega)
  have hsame := pullReady_nothing aP pending herrs hadm
  rcases pullReady_rest aP pending with hnil | ⟨v, rest, hcons, hlt⟩
  · exact hpend hnil
  · rw [hsame] at hcons
    have hfs : firstStart pending = some v.start := by
      rw [hcons]
      rfl
    have haPv : aP = max pos v.start := by
      rw [haP]
      unfold sweepPos
      rw [if_pos (by simp [List.isEmpty_iff, hev]), hfs]
    have := le_max_right pos v.start
    omega

/-- The sweep output does not depend on the fuel, once it is enough. -/
theorem sweepGo_fuel_irrel (tid : Int) (f1 : Nat) :
    ∀ (f2 : Nat) (pos : Int) (active : List AlignmentRecordView)
      (pending : List CursorItem),
      sweepMeasure pos active pending < f1 →
      sweepMeasure pos active pending < f2 →
      sweepGo tid f1 pos active pending = sweepGo tid f2 pos active pending := by
  induction f1 with
  | zero =>
    intro f2 pos active pending h1 _
    omega
  | succ n ih =>
    intro f2 pos active pending h1 h2
    cases f2 with
    | zero => omega
    | succ m =>
      set aP := sweepPos pos active pending with haP
      rcases hpl : pullReady aP pending with ⟨errs, adm, pend, ab⟩
      set A1 := (evicted pos active ++ adm).filter (fun v => decide (aP < v.endPos))
        with hA1
      rw [sweepGo_succ tid n pos active pending aP haP errs adm pend ab hpl A1 hA1,
        sweepGo_succ tid m pos active pending aP haP errs adm pend ab hpl A1 hA1]
      cases ab with
      | true => simp
      | false =>
        simp only [if_false, Bool.false_eq_true]
        have hpa : pos ≤ aP := haP ▸ sweepPos_ge pos active pending
        have hmeas : (A1 ≠ [] ∨ 1 ≤ errs.length + adm.length) →
            sweepMeasure (aP + 1) A1 pend < sweepMeasure pos active pending := by
          intro hprog
          have := sweep_rec_measure pos aP active pending hpa (by
            rw [hpl]
            simpa [← hA1] using hprog)
          rw [hpl] at this
          simpa [← hA1] using this
        by_cases hA1e : A1.isEmpty
        · rw [if_pos hA1e, if_pos hA1e]
          by_cases hpde : pend.isEmpty
          · rw [if_pos hpde, if_pos hpde]
          · rw [if_neg hpde, if_neg hpde]
            have hprog : 1 ≤ errs.length + adm.length := by
              have := sweep_progress pos active pending aP haP (by
                rw [hpl]
                show List.filter (fun v => decide (aP < v.endPos))
                  (evicted pos active ++ adm) = []
                rw [← hA1]
                exact List.isEmpty_iff.mp hA1e) (by
                rw [hpl]
                show pend ≠ []
                intro hc
                rw [hc] at hpde
                simp at hpde)
              rw [hpl] at this
              simpa using this
            have hm := hmeas (Or.inr hprog)
            rw [ih m (aP + 1) A1 pend (by omega) (by omega)]
        · rw [if_neg hA1e, if_neg hA1e]
          have hm := hmeas (Or.inl (by
            intro hc
            rw [hc] at hA1e
            simp at hA1e))
          rw [ih m (aP + 1) A1 pend (by omega) (by omega)]

/-- A stream with a record keeps its first start under appends. -/
theorem firstStart_append_some (p1 : List CursorItem) (s : Int)
    (h : firstStart p1 = some s) (l2 : List CursorItem) :
    firstStart (p1 ++ l2) = some s := by
  induction p1 with
  | nil => simp [firstStart] at h
  | cons it rest ih =>
    match it with
    | .ok v =>
      rw [firstStart] at h
      rw [List.cons_append, firstStart]
      exact h
    | .error e =>
      rw [firstStart] at h
      rw [List.cons_append, firstStart]
      exact ih h

/-- Before the next record, a pull walks only errors, so everything past a
storage error is irrelevant and the position does not matter. -/
theorem pullReady_SE_no_records (p1 : List CursorItem)
    (h : firstStart p1 = none) (pos1 pos2 : Int) (p2 : List CursorItem) :
    pullReady pos1 (p1 ++ .error .StorageError :: p2) =
      pullReady pos2 (p1 ++ [.error .StorageError]) ∧
    (pullReady pos1 (p1 ++ .error .StorageError :: p2)).2.2.2 = true := by
  induction p1 with
  | nil => simp [pullReady]
  | cons it rest ih =>
    match it with
    | .ok v => rw [firstStart] at h; simp at h
    | .error .StorageError => simp [pullReady]
    | .error .MalformedRecord =>
      rw [firstStart] at h
      have hih := ih h
      rw [List.cons_append, List.cons_append]
      constructor
      · rw [pullReady]
        conv_rhs => rw [pullReady]
        rw [hih.1]
      · rw [pullReady]
        simpa using hih.2

/-- Components of a pull are unchanged when everything after a storage
error changes, and — unless the pull aborted — the remaining stream splits
around that same storage error. -/
theorem pullReady_SE (pos : Int) (p1 p2 : List CursorItem) :
    (pullReady pos (p1 ++ .error .StorageError :: p2)).1 =
      (pullReady pos (p1 ++ [.error .StorageError])).1 ∧
    (pullReady pos (p1 ++ .error .StorageError :: p2)).2.1 =
      (pullReady pos (p1 ++ [.error .StorageError])).2.1 ∧
    (pullReady pos (p1 ++ .error .StorageError :: p2)).2.2.2 =
      (pullReady pos (p1 ++ [.error .StorageError])).2.2.2 ∧
    ((pullReady pos (p1 ++ .error .StorageError :: p2)).2.2.2 = true ∨
      ∃ q1, (pullReady pos (p1 ++ .error .StorageError :: p2)).2.2.1 =
          q1 ++ .error .StorageError :: p2 ∧
        (pullReady pos (p1 ++ [.error .StorageError])).2.2.1 =
          q1 ++ [.error .StorageError]) := by
  induction p1 with
  | nil => simp [pullReady]
  | cons it rest ih =>
    match it with
    | .error .StorageError => simp [pullReady]
    | .error .MalformedRecord =>
      rw [List.cons_append, List.cons_append]
      refine ⟨?_, ?_, ?_, ?_⟩
      · rw [pullReady]
        conv_rhs => rw [pullReady]
        simp [ih.1]
      · rw [pullReady]
        conv_rhs => rw [pullReady]
        simpa using ih.2.1
      · rw [pullReady]
        conv_rhs => rw [pullReady]
        simpa using ih.2.2.1
      · rcases ih.2.2.2 with hab | ⟨q1, hq1, hq2⟩
        · left
          rw [pullReady]
          simpa using hab
        · right
          refine ⟨q1, ?_, ?_⟩
          · rw [pullReady]
            simpa using hq1
          · rw [pullReady]
            simpa using hq2
    | .ok v =>
      by_cases h : v.start ≤ pos
      · rw [List.cons_append, List.cons_append]
        refine ⟨?_, ?_, ?_, ?_⟩
        · rw [pullReady, if_pos h]
          conv_rhs => rw [pullReady, if_pos h]
          simpa using ih.1
        · rw [pullReady, if_pos h]
          conv_rhs => rw [pullReady, if_pos h]
          simpa using ih.2.1
        · rw [pullReady, if_pos h]
          conv_rhs => rw [pullReady, if_pos h]
          simpa using ih.2.2.1
        · rcases ih.2.2.2 with hab | ⟨q1, hq1, hq2⟩
          · left
            rw [pullReady, if_pos h]
            simpa using hab
          · right
            refine ⟨q1, ?_, ?_⟩
            · rw [pullReady, if_pos h]
              simpa using hq1
            · rw [pullReady, if_pos h]
              simpa using hq2
      · rw [List.cons_append, List.cons_append]
        refine ⟨?_, ?_, ?_, ?_⟩
        · rw [pullReady, if_neg h]
          conv_rhs => rw [pullReady, if_neg h]
        · rw [pullReady, if_neg h]
          conv_rhs => rw [pullReady, if_neg h]
        · rw [pullReady, if_neg h]
          conv_rhs => rw [pullReady, if_neg h]
        · right
          refine ⟨.ok v :: rest, ?_, ?_⟩
          · rw [pullReady, if_neg h]
            rfl
          · rw [pullReady, if_neg h]
            rfl

/-- When a pull aborts, the last reported error is the storage error. -/
theorem pullReady_abort_last (pos : Int) (pending : List CursorItem)
    (h : (pullReady pos pending).2.2.2 = true) :
    (pullReady pos pending).1.getLast? = some .StorageError := by
  induction pending with
  | nil => simp [pullReady] at h
  | cons it rest ih =>
    match it with
    | .error .StorageError => simp [pullReady]
    | .error .MalformedRecord =>
      rw [pullReady] at h ⊢
      simp only at h ⊢
      have hih := ih h
      have hne : (pullReady pos rest).1 ≠ [] := by
        intro hc
        rw [hc] at hih
        simp at hih
      rw [show (RecErr.MalformedRecord :: (pullReady pos rest).1) =
        [RecErr.MalformedRecord] ++ (pullReady pos rest).1 from rfl]
      rw [List.getLast?_append_of_ne_nil [RecErr.MalformedRecord] hne]
      exact hih
    | .ok v =>
      by_cases hv : v.start ≤ pos
      · rw [pullReady, if_pos hv] at h ⊢
        exact ih h
      · rw [pullReady, if_neg hv] at h
        simp at h

/-- Packaged measure decrease for one sweep step. -/
theorem sweep_step_measure (pos aP : Int) (active : List AlignmentRecordView)
    (pending : List CursorItem) (errs : List RecErr)
    (adm : List AlignmentRecordView) (pend : List CursorItem) (ab : Bool)
    (haP : aP = sweepPos pos active pending)
    (hpl : pullReady aP pending = (errs, adm, pend, ab))
    (hprog : ((evicted pos active ++ adm).filter
        (fun v => decide (aP < v.endPos))) ≠ [] ∨
      1 ≤ errs.length + adm.length) :
    sweepMeasure (aP + 1)
        ((evicted pos active ++ adm).filter (fun v => decide (aP < v.endPos)))
        pend <
      sweepMeasure pos active pending := by
  have hpa : pos ≤ aP := haP ▸ sweepPos_ge pos active pending
  have h := sweep_rec_measure pos aP active pending hpa (by
    rw [hpl]
    simpa using hprog)
  rw [hpl] at h
  simpa using h

/-- Packaged progress fact for one sweep step. -/
theorem sweep_step_progress (pos aP : Int) (active : List AlignmentRecordView)
    (pending : List CursorItem) (errs : List RecErr)
    (adm : List AlignmentRecordView) (pend : List CursorItem)
    (haP : aP = sweepPos pos active pending)
    (hpl : pullReady aP pending = (errs, adm, pend, false))
    (hA1 : ((evicted pos active ++ adm).filter
      (fun v => decide (aP < v.endPos))) = [])
    (hpend : pend ≠ []) : 1 ≤ errs.length + adm.length := by
  have h := sweep_progress pos active pending aP haP (by
    rw [hpl]
    simpa using hA1) (by
    rw [hpl]
    simpa using hpend)
  rw [hpl] at h
  simpa using h

/-- Everything in the stream after a storage error never influences the
sweep: the error aborts it. -/
theorem sweepGo_SE_trunc (tid : Int) (f : Nat) :
    ∀ (pos : Int) (active : List AlignmentRecordView) (p1 p2 : List CursorItem),
      sweepMeasure pos active (p1 ++ .error .StorageError :: p2) < f →
      sweepGo tid f pos active (p1 ++ .error .StorageError :: p2) =
        sweepGo tid f pos active (p1 ++ [.error .StorageError]) := by
  induction f with
  | zero => intro pos active p1 p2 _; rfl
  | succ n ih =>
    intro pos active p1 p2 hfuel
    cases hfs : firstStart p1 with
    | none =>
      set aP1 := sweepPos pos active (p1 ++ .error .StorageError :: p2) with haP1
      set aP2 := sweepPos pos active (p1 ++ [.error .StorageError]) with haP2
      have hpr := pullReady_SE_no_records p1 hfs aP1 aP2 p2
      rcases hpl : pullReady aP1 (p1 ++ .error .StorageError :: p2) with
        ⟨errs, adm, pend, ab⟩
      have hab : ab = true := by
        have h := hpr.2
        rw [hpl] at h
        simpa using h
      have hpl2 : pullReady aP2 (p1 ++ [.error .StorageError]) =
          (errs, adm, pend, ab) := hpr.1.symm.trans hpl
      rw [sweepGo_succ tid n pos active _ aP1 haP1 errs adm pend ab hpl _ rfl,
        sweepGo_succ tid n pos active _ aP2 haP2 errs adm pend ab hpl2 _ rfl,
        hab]
      simp
    | some s =>
      have h1 : firstStart (p1 ++ .error .StorageError :: p2) = some s :=
        firstStart_append_some p1 s hfs _
      have h2 : firstStart (p1 ++ [.error .StorageError]) = some s :=
        firstStart_append_some p1 s hfs _
      have haPeq : sweepPos pos active (p1 ++ .error .StorageError :: p2) =
          sweepPos pos active (p1 ++ [.error .StorageError]) := by
        unfold sweepPos
        rw [h1, h2]
      set aP := sweepPos pos active (p1 ++ .error .StorageError :: p2) with haP
      have hse := pullReady_SE aP p1 p2
      rcases hpl : pullReady aP (p1 ++ .error .StorageError :: p2) with
        ⟨errs, adm, pend, ab⟩
      rcases hpl2 : pullReady aP (p1 ++ [.error .StorageError]) with
        ⟨errs2, adm2, pend2, ab2⟩
      rw [hpl, hpl2] at hse
      simp only at hse
      obtain ⟨he, ha, hb, hd⟩ := hse
      rw [sweepGo_succ tid n pos active _ aP haP errs adm pend ab hpl _ rfl,
        sweepGo_succ tid n pos active _ aP (haP.trans haPeq) errs2 adm2 pend2 ab2
          hpl2 _ rfl]
      subst he
      subst ha
      subst hb
      cases hab : ab with
      | true => simp [hab]
      | false =>
        subst hab
        simp only [Bool.false_eq_true, if_false]
        rcases hd with habt | ⟨q1, hq1, hq2⟩
        · simp at habt
        · subst hq1
          subst hq2
          have hpendne : q1 ++ .error .StorageError :: p2 ≠ [] := by simp
          have hpendne2 : (q1 ++ [.error .StorageError] : List CursorItem) ≠ [] := by
            simp
          set A1 := (evicted pos active ++ adm).filter
            (fun v => decide (aP < v.endPos)) with hA1
          have hrec : A1.isEmpty = true ∨ A1.isEmpty = false := by
            cases A1.isEmpty <;> simp
          have hihcall : sweepGo tid n (aP + 1) A1 (q1 ++ .error .StorageError :: p2) =
              sweepGo tid n (aP + 1) A1 (q1 ++ [.error .StorageError]) := by
            apply ih
            have hprog : A1 ≠ [] ∨ 1 ≤ errs.length + adm.length := by
              by_cases hA1n : A1 = []
              · right
                exact sweep_step_progress pos aP active _ errs adm _ haP hpl
                  (hA1 ▸ hA1n) hpendne
              · left
                exact hA1n
            have := sweep_step_measure pos aP active _ errs adm _ false haP hpl
              (by rw [← hA1]; exact hprog)
            rw [← hA1] at this
            omega
          rcases hrec with hA1e | hA1e
          · rw [if_pos hA1e, if_pos hA1e,
              if_neg (by simp [List.isEmpty_iff, hpendne]),
              if_neg (by simp [List.isEmpty_iff, hpendne2]), hihcall]
          · rw [if_neg (by simp [hA1e]), if_neg (by simp [hA1e]), hihcall]

/-- After a storage error is reached, it is the last item the sweep
yields. -/
theorem sweepGo_SE_last (tid : Int) (f : Nat) :
    ∀ (pos : Int) (active : List AlignmentRecordView) (p1 p2 : List CursorItem),
      sweepMeasure pos active (p1 ++ .error .StorageError :: p2) < f →
      (sweepGo tid f pos active (p1 ++ .error .StorageError :: p2)).getLast? =
        some (.error .StorageError) := by
  induction f with
  | zero => intro pos active p1 p2 h; exfalso; omega
  | succ n ih =>
    intro pos active p1 p2 hfuel
    set aP := sweepPos pos active (p1 ++ .error .StorageError :: p2) with haP
    have hse := pullReady_SE aP p1 p2
    rcases hpl : pullReady aP (p1 ++ .error .StorageError :: p2) with
      ⟨errs, adm, pend, ab⟩
    rw [hpl] at hse
    simp only at hse
    rw [sweepGo_succ tid n pos active _ aP haP errs adm pend ab hpl _ rfl]
    cases hab : ab with
    | true =>
      simp only [if_true]
      have hlast : errs.getLast? = some .StorageError := by
        have := pullReady_abort_last aP (p1 ++ .error .StorageError :: p2) (by
          rw [hpl]
          simpa using hab)
        rw [hpl] at this
        simpa using this
      have hne : errs ≠ [] := by
        intro hc
        rw [hc] at hlast
        simp at hlast
      rw [List.getLast?_map]
      rw [hlast]
      rfl
    | false =>
      subst hab
      simp only [Bool.false_eq_true, if_false]
      rcases hse.2.2.2 with habt | ⟨q1, hq1, _⟩
      · simp at habt
      · subst hq1
        have hpendne : q1 ++ .error .StorageError :: p2 ≠ [] := by simp
        set A1 := (evicted pos active ++ adm).filter
          (fun v => decide (aP < v.endPos)) with hA1
        have hprog : A1 ≠ [] ∨ 1 ≤ errs.length + adm.length := by
          by_cases hA1n : A1 = []
          · right
            exact sweep_step_progress pos aP active _ errs adm _ haP hpl
              (hA1 ▸ hA1n) hpendne
          · left
            exact hA1n
        have hmeas := sweep_step_measure pos aP active _ errs adm _ false haP hpl
          (by rw [← hA1]; exact hprog)
        rw [← hA1] at hmeas
        have hrec := ih (aP + 1) A1 q1 p2 (by omega)
        have hrecne : sweepGo tid n (aP + 1) A1 (q1 ++ .error .StorageError :: p2) ≠ [] := by
          intro hc
          rw [hc] at hrec
          simp at hrec
        by_cases hA1e : A1.isEmpty
        · rw [if_pos hA1e, if_neg (by simp [List.isEmpty_iff, hpendne])]
          rw [List.getLast?_append_of_ne_nil _ hrecne]
          exact hrec
        · rw [if_neg hA1e]
          have hconsne : (Except.ok (colOf tid aP A1) ::
              sweepGo tid n (aP + 1) A1 (q1 ++ .error .StorageError :: p2)) ≠ [] := by
            simp
          rw [List.getLast?_append_of_ne_nil _ hconsne]
          rw [show (Except.ok (colOf tid aP A1) ::
              sweepGo tid n (aP + 1) A1 (q1 ++ .error .StorageError :: p2)) =
            [Except.ok (colOf tid aP A1)] ++
              sweepGo tid n (aP + 1) A1 (q1 ++ .error .StorageError :: p2) from rfl]
          rw [List.getLast?_append_of_ne_nil _ hrecne]
          exact hrec

/-- A malformed item does not change the next record start. -/
theorem firstStart_Mal (p1 p2 : List CursorItem) :
    firstStart (p1 ++ .error .MalformedRecord :: p2) = firstStart (p1 ++ p2) := by
  induction p1 with
  | nil => rfl
  | cons it rest ih =>
    match it with
    | .ok v => rfl
    | .error e =>
      rw [List.cons_append, List.cons_append, firstStart]
      conv_rhs => rw [firstStart]
      exact ih

/-- Removing one malformed item from the stream leaves the admitted
records and the abort flag unchanged, and the remaining streams agree up
to that same malformed item. -/
theorem pullReady_Mal (pos : Int) (p1 p2 : List CursorItem) :
    (pullReady pos (p1 ++ .error .MalformedRecord :: p2)).2.1 =
      (pullReady pos (p1 ++ p2)).2.1 ∧
    (pullReady pos (p1 ++ .error .MalformedRecord :: p2)).2.2.2 =
      (pullReady pos (p1 ++ p2)).2.2.2 ∧
    ((∃ q1, (pullReady pos (p1 ++ .error .MalformedRecord :: p2)).2.2.1 =
          q1 ++ .error .MalformedRecord :: p2 ∧
        (pullReady pos (p1 ++ p2)).2.2.1 = q1 ++ p2) ∨
      (pullReady pos (p1 ++ .error .MalformedRecord :: p2)).2.2.1 =
        (pullReady pos (p1 ++ p2)).2.2.1) := by
  induction p1 with
  | nil =>
    refine ⟨?_, ?_, Or.inr ?_⟩ <;> rw [List.nil_append, List.nil_append, pullReady]
  | cons it rest ih =>
    match it with
    | .error .StorageError =>
      refine ⟨?_, ?_, Or.inr ?_⟩ <;> simp [pullReady]
    | .error .MalformedRecord =>
      rw [List.cons_append, List.cons_append]
      refine ⟨?_, ?_, ?_⟩
      · rw [pullReady]
        conv_rhs => rw [pullReady]
        simpa using ih.1
      · rw [pullReady]
        conv_rhs => rw [pullReady]
        simpa using ih.2.1
      · rcases ih.2.2 with ⟨q1, hq1, hq2⟩ | heq
        · left
          refine ⟨q1, ?_, ?_⟩
          · rw [pullReady]
            simpa using hq1
          · rw [pullReady]
            simpa using hq2
        · right
          rw [pullReady]
          conv_rhs => rw [pullReady]
          simpa using heq
    | .ok v =>
      by_cases h : v.start ≤ pos
      · rw [List.cons_append, List.cons_append]
        refine ⟨?_, ?_, ?_⟩
        · rw [pullReady, if_pos h]
          conv_rhs => rw [pullReady, if_pos h]
          simpa using ih.1
        · rw [pullReady, if_pos h]
          conv_rhs => rw [pullReady, if_pos h]
          simpa using ih.2.1
        · rcases ih.2.2 with ⟨q1, hq1, hq2⟩ | heq
          · left
            refine ⟨q1, ?_, ?_⟩
            · rw [pullReady, if_pos h]
              simpa using hq1
            · rw [pullReady, if_pos h]
              simpa using hq2
          · right
            rw [pullReady, if_pos h]
            conv_rhs => rw [pullReady, if_pos h]
            simpa using heq
      · rw [List.cons_append, List.cons_append]
        refine ⟨?_, ?_, ?_⟩
        · rw [pullReady, if_neg h]
          conv_rhs => rw [pullReady, if_neg h]
        · rw [pullReady, if_neg h]
          conv_rhs => rw [pullReady, if_neg h]
        · left
          refine ⟨.ok v :: rest, ?_, ?_⟩
          · rw [pullReady, if_neg h]
            rfl
          · rw [pullReady, if_neg h]
            rfl

/-- A malformed item is either reported by this pull, or survives intact in
the remaining stream with no storage error before it. -/
theorem pullReady_Mal_mem (pos : Int) (p1 p2 : List CursorItem)
    (hSE : (.error .StorageError : CursorItem) ∉ p1) :
    .MalformedRecord ∈ (pullReady pos (p1 ++ .error .MalformedRecord :: p2)).1 ∨
      ((pullReady pos (p1 ++ .error .MalformedRecord :: p2)).2.2.2 = false ∧
        ∃ q1, (pullReady pos (p1 ++ .error .MalformedRecord :: p2)).2.2.1 =
            q1 ++ .error .MalformedRecord :: p2 ∧
          (.error .StorageError : CursorItem) ∉ q1) := by
  induction p1 with
  | nil =>
    left
    rw [List.nil_append, pullReady]
    simp
  | cons it rest ih =>
    have hSErest : (.error .StorageError : CursorItem) ∉ rest := by
      intro hc
      exact hSE (List.mem_cons_of_mem _ hc)
    match it with
    | .error .StorageError => exact absurd (List.mem_cons_self _ _) hSE
    | .error .MalformedRecord =>
      rw [List.cons_append]
      rcases ih hSErest with hmem | ⟨hab, q1, hq1, hq1SE⟩
      · left
        rw [pullReady]
        simpa using List.mem_cons_of_mem _ hmem
      · right
        refine ⟨?_, q1, ?_, hq1SE⟩
        · rw [pullReady]
          simpa using hab
        · rw [pullReady]
          simpa using hq1
    | .ok v =>
      by_cases h : v.start ≤ pos
      · rw [List.cons_append]
        rcases ih hSErest with hmem | ⟨hab, q1, hq1, hq1SE⟩
        · left
          rw [pullReady, if_pos h]
          simpa using hmem
        · right
          refine ⟨?_, q1, ?_, hq1SE⟩
          · rw [pullReady, if_pos h]
            simpa using hab
          · rw [pullReady, if_pos h]
            simpa using hq1
      · right
        rw [List.cons_append]
        refine ⟨?_, .ok v :: rest, ?_, ?_⟩
        · rw [pullReady, if_neg h]
        · rw [pullReady, if_neg h]
          rfl
        · intro hc
          rcases List.mem_cons.mp hc with hc | hc
          · exact Except.noConfusion hc
          · exact hSErest hc

/-- Columns pass through the error filter, errors do not. -/
theorem filterMap_okCol_map_error (l : List RecErr) :
    (l.map (.error : RecErr → Except RecErr Column)).filterMap okCol = [] := by
  induction l with
  | nil => rfl
  | cons e rest ih => simp [okCol, ih]

/-- A sweep over a lone malformed item yields no columns. -/
theorem sweepGo_single_mal (tid : Int) (n : Nat) (pos : Int) :
    (sweepGo tid n pos [] [.error .MalformedRecord]).filterMap okCol = [] := by
  cases n with
  | zero => rfl
  | succ m =>
    have hstep := sweepGo_succ tid m pos [] [.error .MalformedRecord]
      (sweepPos pos [] [.error .MalformedRecord]) rfl
      [.MalformedRecord] [] [] false rfl [] rfl
    rw [hstep]
    simp [okCol]

/-- Removing one malformed item from the stream leaves the emitted columns
unchanged: the record is only skipped, the sweep continues. -/
theorem sweepGo_Mal_cols (tid : Int) (f : Nat) :
    ∀ (pos : Int) (active : List AlignmentRecordView) (p1 p2 : List CursorItem),
      sweepMeasure pos active (p1 ++ .error .MalformedRecord :: p2) < f →
      sweepMeasure pos active (p1 ++ p2) < f →
      (sweepGo tid f pos active (p1 ++ .error .MalformedRecord :: p2)).filterMap okCol =
        (sweepGo tid f pos active (p1 ++ p2)).filterMap okCol := by
  induction f with
  | zero => intro pos active p1 p2 _ _; rfl
  | succ n ih =>
    intro pos active p1 p2 hfuel1 hfuel2
    have haPeq : sweepPos pos active (p1 ++ .error .MalformedRecord :: p2) =
        sweepPos pos active (p1 ++ p2) := by
      unfold sweepPos
      rw [firstStart_Mal]
    set aP := sweepPos pos active (p1 ++ .error .MalformedRecord :: p2) with haP
    have hml := pullReady_Mal aP p1 p2
    rcases hpl : pullReady aP (p1 ++ .error .MalformedRecord :: p2) with
      ⟨errs, adm, pend, ab⟩
    rcases hpl2 : pullReady aP (p1 ++ p2) with ⟨errs2, adm2, pend2, ab2⟩
    rw [hpl, hpl2] at hml
    simp only at hml
    obtain ⟨ha, hb, hd⟩ := hml
    subst ha
    subst hb
    rw [sweepGo_succ tid n pos active _ aP haP errs adm pend ab hpl _ rfl,
      sweepGo_succ tid n pos active _ aP (haP.trans haPeq) errs2 adm pend2 ab
        hpl2 _ rfl]
    cases hab : ab with
    | true =>
      simp only [if_true]
      rw [filterMap_okCol_map_error, filterMap_okCol_map_error]
    | false =>
      subst hab
      simp only [Bool.false_eq_true, if_false]
      set A1 := (evicted pos active ++ adm).filter
        (fun v => decide (aP < v.endPos)) with hA1
      rcases hd with ⟨q1, hq1, hq2⟩ | heq
      · subst hq1
        subst hq2
        have hpendne : q1 ++ .error .MalformedRecord :: p2 ≠ [] := by simp
        by_cases hA1e : A1.isEmpty
        · rw [if_pos hA1e, if_pos hA1e,
            if_neg (by simp [List.isEmpty_iff, hpendne])]
          have hA1nil : A1 = [] := List.isEmpty_iff.mp hA1e
          have hm1 : sweepMeasure (aP + 1) A1 (q1 ++ .error .MalformedRecord :: p2) <
              sweepMeasure pos active (p1 ++ .error .MalformedRecord :: p2) := by
            have hprog : 1 ≤ errs.length + adm.length :=
              sweep_step_progress pos aP active _ errs adm _ haP hpl
                (hA1 ▸ hA1nil) hpendne
            have := sweep_step_measure pos aP active _ errs adm _ false haP hpl
              (Or.inr hprog)
            rw [← hA1] at this
            exact this
          by_cases hpende2 : (q1 ++ p2 : List CursorItem).isEmpty
          · rw [if_pos hpende2]
            have hq1nil : q1 = [] ∧ p2 = [] := by
              have := List.isEmpty_iff.mp hpende2
              constructor
              · exact List.append_eq_nil.mp this |>.1
              · exact List.append_eq_nil.mp this |>.2
            rw [List.filterMap_append, filterMap_okCol_map_error, List.nil_append,
              filterMap_okCol_map_error]
            rw [hq1nil.1, hq1nil.2, hA1nil]
            exact sweepGo_single_mal tid n (aP + 1)
          · rw [if_neg hpende2]
            have hpendne2 : (q1 ++ p2 : List CursorItem) ≠ [] := by
              intro hc
              rw [hc] at hpende2
              simp at hpende2
            have hm2 : sweepMeasure (aP + 1) A1 (q1 ++ p2) <
                sweepMeasure pos active (p1 ++ p2) := by
              have hprog : 1 ≤ errs2.length + adm.length :=
                sweep_step_progress pos aP active _ errs2 adm _ (haP.trans haPeq)
                  hpl2 (hA1 ▸ hA1nil) hpendne2
              have := sweep_step_measure pos aP active _ errs2 adm _ false
                (haP.trans haPeq) hpl2 (Or.inr hprog)
              rw [← hA1] at this
              exact this
            rw [List.filterMap_append, filterMap_okCol_map_error, List.nil_append,
              List.filterMap_append, filterMap_okCol_map_error, List.nil_append]
            exact ih (aP + 1) A1 q1 p2 (by omega) (by omega)
        · rw [if_neg hA1e, if_neg hA1e]
          have hA1ne : A1 ≠ [] := by
            intro hc
            rw [hc] at hA1e
            simp at hA1e
          have hm1 : sweepMeasure (aP + 1) A1 (q1 ++ .error .MalformedRecord :: p2) <
              sweepMeasure pos active (p1 ++ .error .MalformedRecord :: p2) := by
            have := sweep_step_measure pos aP active _ errs adm _ false haP hpl
              (Or.inl (hA1 ▸ hA1ne))
            rw [← hA1] at this
            exact this
          have hm2 : sweepMeasure (aP + 1) A1 (q1 ++ p2) <
              sweepMeasure pos active (p1 ++ p2) := by
            have := sweep_step_measure pos aP active _ errs2 adm _ false
              (haP.trans haPeq) hpl2 (Or.inl (hA1 ▸ hA1ne))
            rw [← hA1] at this
            exact this
          rw [List.filterMap_append, filterMap_okCol_map_error, List.nil_append,
            List.filterMap_append, filterMap_okCol_map_error, List.nil_append]
          rw [List.filterMap_cons, List.filterMap_cons]
          simp only [okCol]
          rw [ih (aP + 1) A1 q1 p2 (by omega) (by omega)]
      · rw [heq]
        by_cases hA1e : A1.isEmpty
        · rw [if_pos hA1e, if_pos hA1e]
          by_cases hpende : pend2.isEmpty
          · rw [if_pos hpende, if_pos hpende,
              filterMap_okCol_map_error, filterMap_okCol_map_error]
          · rw [if_neg hpende, if_neg hpende,
              List.filterMap_append, filterMap_okCol_map_error, List.nil_append,
              List.filterMap_append, filterMap_okCol_map_error, List.nil_append]
        · rw [if_neg hA1e, if_neg hA1e,
            List.filterMap_append, filterMap_okCol_map_error, List.nil_append,
            List.filterMap_append, filterMap_okCol_map_error, List.nil_append]

/-- A malformed item is reported by the sweep as an error value, provided
no storage error precedes it. -/
theorem sweepGo_Mal_mem (tid : Int) (f : Nat) :
    ∀ (pos : Int) (active : List AlignmentRecordView) (p1 p2 : List CursorItem),
      sweepMeasure pos active (p1 ++ .error .MalformedRecord :: p2) < f →
      (.error .StorageError : CursorItem) ∉ p1 →
      (.error .MalformedRecord : Except RecErr Column) ∈
        sweepGo tid f pos active (p1 ++ .error .MalformedRecord :: p2) := by
  induction f with
  | zero => intro pos active p1 p2 h _; exfalso; omega
  | succ n ih =>
    intro pos active p1 p2 hfuel hSE
    set aP := sweepPos pos active (p1 ++ .error .MalformedRecord :: p2) with haP
    rcases hpl : pullReady aP (p1 ++ .error .MalformedRecord :: p2) with
      ⟨errs, adm, pend, ab⟩
    have hmm := pullReady_Mal_mem aP p1 p2 hSE
    rw [hpl] at hmm
    simp only at hmm
    rw [sweepGo_succ tid n pos active _ aP haP errs adm pend ab hpl _ rfl]
    rcases hmm with hmem | ⟨hab, q1, hq1, hq1SE⟩
    · have herrmem : (.error .MalformedRecord : Except RecErr Column) ∈
          errs.map .error := by
        rcases List.mem_map.mpr ⟨.MalformedRecord, hmem, rfl⟩ with h
        exact h
      cases ab with
      | true =>
        simp only [if_true]
        exact herrmem
      | false =>
        simp only [Bool.false_eq_true, if_false]
        by_cases hA1e : ((evicted pos active ++ adm).filter
            (fun v => decide (aP < v.endPos))).isEmpty
        · rw [if_pos hA1e]
          by_cases hpende : pend.isEmpty
          · rw [if_pos hpende]
            exact herrmem
          · rw [if_neg hpende]
            exact List.mem_append_left _ herrmem
        · rw [if_neg hA1e]
          exact List.mem_append_left _ herrmem
    · subst hab
      subst hq1
      simp only [Bool.false_eq_true, if_false]
      set A1 := (evicted pos active ++ adm).filter
        (fun v => decide (aP < v.endPos)) with hA1
      have hpendne : q1 ++ .error .MalformedRecord :: p2 ≠ [] := by simp
      have hprog : A1 ≠ [] ∨ 1 ≤ errs.length + adm.length := by
        by_cases hA1n : A1 = []
        · right
          exact sweep_step_progress pos aP active _ errs adm _ haP hpl
            (hA1 ▸ hA1n) hpendne
        · left
          exact hA1n
      have hmeas := sweep_step_measure pos aP active _ errs adm _ false haP hpl
        (by rw [← hA1]; exact hprog)
      rw [← hA1] at hmeas
      have hrec := ih (aP + 1) A1 q1 p2 (by omega) hq1SE
      by_cases hA1e : A1.isEmpty
      · rw [if_pos hA1e, if_neg (by simp [List.isEmpty_iff, hpendne])]
        exact List.mem_append_right _ hrec
      · rw [if_neg hA1e]
        exact List.mem_append_right _ (List.mem_cons_of_mem _ hrec)

/-- Pending cost distributes over append. -/
theorem pendingCost_append (a b : List CursorItem) :
    pendingCost (a ++ b) = pendingCost a + pendingCost b := by
  simp [pendingCost, List.filterMap_append]
  omega

/-- C9: a malformed record aborts only its own admission — the emitted
columns are those of the stream without it, and the error is still
reported as a value (when no storage error precedes it) — whereas a
storage error aborts the whole sweep: the output ignores everything after
it and ends with that error, the cursor being exhausted thereafter. -/
theorem pileup_error_policy (tid pos : Int) (active : List AlignmentRecordView)
    (p1 p2 : List CursorItem) :
    ((sweep tid pos active (p1 ++ .error .MalformedRecord :: p2)).filterMap okCol =
      (sweep tid pos active (p1 ++ p2)).filterMap okCol) ∧
      ((.error .StorageError : CursorItem) ∉ p1 →
        (.error .MalformedRecord : Except RecErr Column) ∈
          sweep tid pos active (p1 ++ .error .MalformedRecord :: p2)) ∧
      (sweep tid pos active (p1 ++ .error .StorageError :: p2) =
        sweep tid pos active (p1 ++ [.error .StorageError])) ∧
      ((sweep tid pos active (p1 ++ .error .StorageError :: p2)).getLast? =
        some (.error .StorageError)) := by
  have hMle : sweepMeasure pos active (p1 ++ p2) ≤
      sweepMeasure pos active (p1 ++ .error .MalformedRecord :: p2) := by
    unfold sweepMeasure
    rw [pendingCost_append, pendingCost_append, pendingCost_error_cons]
    omega
  have hSle : sweepMeasure pos active (p1 ++ [.error .StorageError]) ≤
      sweepMeasure pos active (p1 ++ .error .StorageError :: p2) := by
    unfold sweepMeasure
    have e1 : pendingCost (.error .StorageError :: p2) = 1 + pendingCost p2 :=
      pendingCost_error_cons _ _
    have e2 : pendingCost ([.error .StorageError] : List CursorItem) =
        1 + pendingCost [] := pendingCost_error_cons _ _
    have e0 : pendingCost ([] : List CursorItem) = 0 := rfl
    rw [pendingCost_append, pendingCost_append, e1, e2, e0]
    omega
  refine ⟨?_, ?_, ?_, ?_⟩
  · unfold sweep
    have hfi := sweepGo_fuel_irrel tid (sweepMeasure pos active (p1 ++ p2) + 1)
      (sweepMeasure pos active (p1 ++ .error .MalformedRecord :: p2) + 1)
      pos active (p1 ++ p2) (by omega) (by omega)
    rw [hfi]
    exact sweepGo_Mal_cols tid _ pos active p1 p2 (by omega) (by omega)
  · intro hSE
    unfold sweep
    exact sweepGo_Mal_mem tid _ pos active p1 p2 (by omega) hSE
  · unfold sweep
    have hfi := sweepGo_fuel_irrel tid
      (sweepMeasure pos active (p1 ++ [.error .StorageError]) + 1)
      (sweepMeasure pos active (p1 ++ .error .StorageError :: p2) + 1)
      pos active (p1 ++ [.error .StorageError]) (by omega) (by omega)
    rw [hfi]
    exact sweepGo_SE_trunc tid _ pos active p1 p2 (by omega)
  · unfold sweep
    exact sweepGo_SE_last tid _ pos active p1 p2 (by omega)

/-- Witness for C9 on a concrete two-record stream. -/
theorem pileup_error_policy_witness :
    ((.error .StorageError : CursorItem) ∉
        [(.ok ⟨some 0, 0, [⟨.Match, 2⟩], 2⟩ : CursorItem)]) ∧
      ((sweep 0 0 [] ([.ok ⟨some 0, 0, [⟨.Match, 2⟩], 2⟩] ++
          .error .MalformedRecord :: [.ok ⟨some 0, 3, [⟨.Match, 2⟩], 2⟩])).filterMap okCol =
        (sweep 0 0 [] ([.ok ⟨some 0, 0, [⟨.Match, 2⟩], 2⟩] ++
          [.ok ⟨some 0, 3, [⟨.Match, 2⟩], 2⟩])).filterMap okCol) ∧
      ((.error .MalformedRecord : Except RecErr Column) ∈
        sweep 0 0 [] ([.ok ⟨some 0, 0, [⟨.Match, 2⟩], 2⟩] ++
          .error .MalformedRecord :: [.ok ⟨some 0, 3, [⟨.Match, 2⟩], 2⟩])) ∧
      (sweep 0 0 [] ([.ok ⟨some 0, 0, [⟨.Match, 2⟩], 2⟩] ++
          .error .StorageError :: [.ok ⟨some 0, 3, [⟨.Match, 2⟩], 2⟩]) =
        sweep 0 0 [] ([.ok ⟨some 0, 0, [⟨.Match, 2⟩], 2⟩] ++ [.error .StorageError])) ∧
      ((sweep 0 0 [] ([.ok ⟨some 0, 0, [⟨.Match, 2⟩], 2⟩] ++
          .error .StorageError :: [.ok ⟨some 0, 3, [⟨.Match, 2⟩], 2⟩])).getLast? =
        some (.error .StorageError)) := by
  have h := pileup_error_policy 0 0 [] [.ok ⟨some 0, 0, [⟨.Match, 2⟩], 2⟩]
    [.ok ⟨some 0, 3, [⟨.Match, 2⟩], 2⟩]
  exact ⟨by decide, h.1, h.2.1 (by decide), h.2.2.1, h.2.2.2⟩

end Htslib
